import Mathlib

/-!
Verification development for the wildcard-trie implementation in `src/index.ts`
(@sec-ant/trie).

The TypeScript source stores a trie node as a `Map` whose keys are literal
tokens plus three reserved symbols: `dataSymbol` (the terminal value slot),
`wildcardSymbol` (the single wildcard edge) and `wildcardCountSymbol` (the run
length carried by a node that is the target of a wildcard edge).  We embed a
node as a four-field tree: the optional terminal value, the optional run
length, the optional wildcard child, and the association list of literal
edges (JavaScript `Map` preserves insertion order, so an in-order association
list is the faithful rendering; `Map.set` updates in place or appends).

Mutable references into the tree (the `node` / `seekContext.parentNode`
variables of the source) become explicit positions: either a chain depth
(number of wildcard edges below the current anchor node) for the insertion
engine, or a list of edges from the root for the deletion engine, mirroring
the `stack` that `softSeek` records.  Stateful methods become functions
returning the updated `Trie` value.
-/

/-- Path segment: a literal token or a wildcard with a count
(source: `I | WildcardSegment`). -/
inductive Seg (I : Type) where
  | lit (i : I)
  | wc (n : Nat)
  deriving DecidableEq, Repr

/-- Wildcard segment constructor `w(count)` (source lines 101-108): a valid
count (positive integer) is kept, an invalid one falls back to 1.  In the
`Nat` embedding the only invalid count is 0; the source's default count of 1
is supplied at call sites. -/
def w (count : Nat) : Seg I :=
  if 0 < count then Seg.wc count else Seg.wc 1

/-- Trie node (source `Node<I, V>`): terminal value slot (`dataSymbol` entry),
run length (`wildcardCountSymbol` entry), wildcard edge (`wildcardSymbol`
entry), literal edges (the remaining `Map` entries, in insertion order). -/
inductive TrieNode (I V : Type) : Type where
  | mk (data : Option V) (cnt : Option Nat) (wild : Option (TrieNode I V))
      (lits : List (I × TrieNode I V)) : TrieNode I V

namespace TrieNode

/-- Terminal value slot of a node (`node.get(dataSymbol)`). -/
def data : TrieNode I V → Option V
  | mk d _ _ _ => d

/-- Run length of a node (`node.get(wildcardCountSymbol)`); `isSome` iff the
node `isWildcardCountNode` (source lines 490-494). -/
def cnt : TrieNode I V → Option Nat
  | mk _ c _ _ => c

/-- Wildcard edge of a node (`node.get(wildcardSymbol)`). -/
def wild : TrieNode I V → Option (TrieNode I V)
  | mk _ _ w _ => w

/-- Literal edges of a node, in `Map` insertion order. -/
def lits : TrieNode I V → List (I × TrieNode I V)
  | mk _ _ _ l => l

/-- Fresh empty node (`new Map()`). -/
def empty : TrieNode I V := mk none none none []

/-- Replace the terminal value slot (`node.set(dataSymbol, v)` /
`node.delete(dataSymbol)`). -/
def setData : TrieNode I V → Option V → TrieNode I V
  | mk _ c w l, d => mk d c w l

/-- Replace the run length (`node.set(wildcardCountSymbol, n)`). -/
def setCnt : TrieNode I V → Option Nat → TrieNode I V
  | mk d _ w l, c => mk d c w l

/-- Replace the wildcard edge (`node.set(wildcardSymbol, c)` /
`node.delete(wildcardSymbol)`). -/
def setWild : TrieNode I V → Option (TrieNode I V) → TrieNode I V
  | mk d c _ l, w => mk d c w l

/-- Lookup in an association list of literal edges (`node.get(key)`). -/
def lookupL [DecidableEq I] : List (I × TrieNode I V) → I → Option (TrieNode I V)
  | [], _ => none
  | (j, n) :: r, i => if j = i then some n else lookupL r i

/-- Update-or-append in an association list of literal edges
(`node.set(key, child)`: a `Map` keeps the position of an existing key and
appends a new one). -/
def setL [DecidableEq I] : List (I × TrieNode I V) → I → TrieNode I V →
    List (I × TrieNode I V)
  | [], i, n => [(i, n)]
  | (j, m) :: r, i, n => if j = i then (i, n) :: r else (j, m) :: setL r i n

/-- Remove a key from an association list of literal edges
(`node.delete(key)`). -/
def delL [DecidableEq I] : List (I × TrieNode I V) → I → List (I × TrieNode I V)
  | [], _ => []
  | (j, m) :: r, i => if j = i then r else (j, m) :: delL r i

/-- Literal child of a node (`node.get(segment)` for a non-symbol key). -/
def getLit [DecidableEq I] (n : TrieNode I V) (i : I) : Option (TrieNode I V) :=
  lookupL n.lits i

/-- Set a literal child (`node.set(segment, child)`). -/
def setLit [DecidableEq I] : TrieNode I V → I → TrieNode I V → TrieNode I V
  | mk d c w l, i, n => mk d c w (setL l i n)

/-- Delete a literal child (`node.delete(segment)`). -/
def delLit [DecidableEq I] : TrieNode I V → I → TrieNode I V
  | mk d c w l, i => mk d c w (delL l i)

/-- Test used by `cleanUp` (source lines 735-742): does the node have any key
other than `wildcardCountSymbol`?  Those keys are the terminal slot, the
wildcard edge and the literal edges. -/
def hasChildren : TrieNode I V → Bool
  | mk d _ w l => d.isSome || w.isSome || !l.isEmpty

/-- Node at a given depth along the wildcard-edge chain below `n`. -/
def chainGet : TrieNode I V → Nat → Option (TrieNode I V)
  | n, 0 => some n
  | n, d + 1 =>
    match n.wild with
    | some c => chainGet c d
    | none => none

/-- Rewrite the node at a given depth along the wildcard-edge chain below
`n`; identity when the chain is too short. -/
def chainMod : TrieNode I V → Nat → (TrieNode I V → TrieNode I V) → TrieNode I V
  | n, 0, f => f n
  | n, d + 1, f =>
    match n.wild with
    | some c => n.setWild (some (chainMod c d f))
    | none => n

/-- Wildcard-chain walk shared by `hardSeekStep` and `softSeekStep` (source
lines 556-564 and 644-652): starting at `node` with accumulated
`nodeWildcardCount` `nWC` and requested `pathWildcardCount` `pWC`, descend the
wildcard edge while one exists and `nWC < pWC`, adding each child's run
length (`childNode.get(wildcardCountSymbol) ?? 1`).  Returns the number of
descents, the final node, and the final `nodeWildcardCount`. -/
def chainWalk : TrieNode I V → Nat → Nat → Nat × TrieNode I V × Nat
  | node@(mk _ _ ow _), nWC, pWC =>
    match ow with
    | some c =>
      if nWC < pWC then
        let r := chainWalk c (nWC + c.cnt.getD 1) pWC
        (r.1 + 1, r.2)
      else (0, node, nWC)
    | none => (0, node, nWC)

/-- Resolver (source `resolveNode`, lines 504-530), anchor-relative: the
current node is the chain node at depth `d` below the anchor `A`; the
source's `seekContext.parentNode` is the chain node at depth `d - 1`.
Returns the anchor subtree after resolution and the depth of the resolved
node.  The two unreachable fallbacks (`chainGet` miss, split at depth 0)
correspond to states in which the source would dereference a missing map
entry (`node.get(wildcardCountSymbol)!`) or an unset `seekContext.parentNode!`. -/
def resolveNode (A : TrieNode I V) (d nWC pWC : Nat) : TrieNode I V × Nat :=
  if nWC < pWC then
    let diffCount := pWC - nWC
    let nextNode : TrieNode I V := mk none (some diffCount) none []
    (chainMod A d (fun node => node.setWild (some nextNode)), d + 1)
  else if pWC < nWC then
    match chainGet A d, d with
    | some node, dd + 1 =>
      let diffCount := nWC - pWC
      let nextNode : TrieNode I V :=
        mk none (some (node.cnt.getD 0 - diffCount))
          (some (node.setCnt (some diffCount))) []
      (chainMod A dd (fun parent => parent.setWild (some nextNode)), dd + 1)
    | _, _ => (A, d)
  else (A, d)

/-- Insertion engine fused with the terminal-slot update (source
`hardSeekSync`, lines 599-612, plus the body of `Trie.setSync` /
`Trie.setCallbackSync`, lines 172-180 and 205-216).  Processes the remaining
segments from the chain node at depth `d` below anchor `A` with seek context
`(nWC, pWC)`; on a literal segment it resolves the pending wildcard
remainder, follows or creates the literal edge and recurses with the child as
the new anchor (all later mutations stay inside that child, so grafting the
rebuilt child back reproduces the in-place mutation); at the end it resolves
and applies `f` to the terminal slot.  Returns the rebuilt anchor subtree and
the `exists` flag (`node.has(dataSymbol)` before the write). -/
def hardSeekSet [DecidableEq I] (A : TrieNode I V) (d nWC pWC : Nat) :
    List (Seg I) → (Option V → V) → TrieNode I V × Bool
  | [], f =>
    let r := resolveNode A d nWC pWC
    let node := (chainGet r.1 r.2).getD empty
    (chainMod r.1 r.2 (fun n => n.setData (some (f node.data))), node.data.isSome)
  | .lit i :: rest, f =>
    let r := resolveNode A d nWC pWC
    let node := (chainGet r.1 r.2).getD empty
    let child := (node.getLit i).getD empty
    let rc := hardSeekSet child 0 0 0 rest f
    (chainMod r.1 r.2 (fun n => n.setLit i rc.1), rc.2)
  | .wc k :: rest, f =>
    let pWC1 := pWC + k
    let cur := (chainGet A d).getD empty
    let rw := chainWalk cur nWC pWC1
    hardSeekSet A (d + rw.1) rw.2.2 pWC1 rest f

/-- Lookup-engine loop (source `softSeekStep` folded by `softSeekSync`, lines
624-654 and 701-726, without the optional stack): follows existing edges
only; a literal segment requires the wildcard deficit to be settled
(`nodeWildcardCount == pathWildcardCount`) and the edge to exist; a wildcard
segment walks the existing chain.  Returns the reached node and both
counts. -/
def softSeekLoop [DecidableEq I] (node : TrieNode I V) (nWC pWC : Nat) :
    List (Seg I) → Option (TrieNode I V × Nat × Nat)
  | [] => some (node, nWC, pWC)
  | .lit i :: rest =>
    if nWC ≠ pWC then none
    else
      match node.getLit i with
      | none => none
      | some child => softSeekLoop child nWC pWC rest
  | .wc k :: rest =>
    let pWC1 := pWC + k
    let rw := chainWalk node nWC pWC1
    softSeekLoop rw.2.1 rw.2.2 pWC1 rest

/-- Lookup engine (source `softSeekSync`, lines 701-726): after the loop the
path must not end mid-run (`nodeWildcardCount == pathWildcardCount`) and the
terminal slot must be occupied. -/
def softSeekSync [DecidableEq I] (root : TrieNode I V) (path : List (Seg I)) :
    Option (TrieNode I V) :=
  match softSeekLoop root 0 0 path with
  | none => none
  | some (node, nWC, pWC) =>
    if nWC ≠ pWC ∨ node.data.isNone then none else some node

/-- Edge label: the key of a stack entry recorded by `softSeek`
(`wildcardSymbol` or a literal token). -/
inductive Edge (I : Type) where
  | wc
  | lit (i : I)
  deriving DecidableEq, Repr

/-- Child of a node along one edge. -/
def getEdge [DecidableEq I] (n : TrieNode I V) : Edge I → Option (TrieNode I V)
  | .wc => n.wild
  | .lit i => n.getLit i

/-- Replace the child of a node along one edge. -/
def setEdge [DecidableEq I] (n : TrieNode I V) : Edge I → TrieNode I V → TrieNode I V
  | .wc, c => n.setWild (some c)
  | .lit i, c => n.setLit i c

/-- Delete the edge of a node (`parentNode.delete(segment)` in `cleanUp`). -/
def delEdge [DecidableEq I] (n : TrieNode I V) : Edge I → TrieNode I V
  | .wc => n.setWild none
  | .lit i => n.delLit i

/-- Node at a position (list of edges from the given node). -/
def getAt [DecidableEq I] : TrieNode I V → List (Edge I) → Option (TrieNode I V)
  | n, [] => some n
  | n, e :: p =>
    match getEdge n e with
    | none => none
    | some c => getAt c p

/-- Rewrite the node at a position; identity when the position is missing. -/
def modifyAt [DecidableEq I] : TrieNode I V → List (Edge I) →
    (TrieNode I V → TrieNode I V) → TrieNode I V
  | n, [], f => f n
  | n, e :: p, f =>
    match getEdge n e with
    | none => n
    | some c => setEdge n e (modifyAt c p f)

/-- Lookup-engine loop with the recorded traversal stack (source
`softSeekSync` called with a `stack`, as `deleteSync` does): same traversal
as `softSeekLoop`, but returns the list of edges from the start node to the
reached node — the source's stack holds exactly the `(edge key, parent)`
pairs along that list. -/
def softSeekStack [DecidableEq I] (node : TrieNode I V) (nWC pWC : Nat) :
    List (Seg I) → Option (List (Edge I) × Nat × Nat)
  | [] => some ([], nWC, pWC)
  | .lit i :: rest =>
    if nWC ≠ pWC then none
    else
      match node.getLit i with
      | none => none
      | some child =>
        (softSeekStack child nWC pWC rest).map fun r => (Edge.lit i :: r.1, r.2)
  | .wc k :: rest =>
    let pWC1 := pWC + k
    let rw := chainWalk node nWC pWC1
    (softSeekStack rw.2.1 rw.2.2 pWC1 rest).map fun r =>
      (List.replicate rw.1 Edge.wc ++ r.1, r.2)

/-- Pruning phase of `cleanUp` (source lines 752-756): walking back from the
found node, delete the edge into any node that has no literal edges, no
wildcard edge and no terminal value; rendered bottom-up along the recorded
position, which computes the same cascade as the source's while loop. -/
def pruneAt [DecidableEq I] : TrieNode I V → List (Edge I) → TrieNode I V
  | t, [] => t
  | t, e :: p =>
    match getEdge t e with
    | none => t
    | some c =>
      let c1 := pruneAt c p
      if c1.hasChildren then setEdge t e c1 else delEdge t e

/-- Longest surviving initial part of a position after pruning: the node it
addresses is where the source's pruning loop stopped. -/
def livePos [DecidableEq I] : TrieNode I V → List (Edge I) → List (Edge I)
  | _, [] => []
  | t, e :: p =>
    match getEdge t e with
    | none => []
    | some c => e :: livePos c p

/-- Clean-up after deletion (source `cleanUp`, lines 751-770): prune empty
nodes, then, if the node where pruning stopped has no terminal value, still
has a wildcard edge and is itself a wildcard-run node, merge it with its
wildcard child by adding the run lengths and pointing the parent's wildcard
edge directly at the child.  The stopped node's literal edges are not
examined by the source before the merge.  When the stack is empty at the
merge the source would dereference `stack.pop()!` of an empty stack; that
state is unreachable because the root never carries a run length. -/
def cleanUp [DecidableEq I] (root : TrieNode I V) (pos : List (Edge I)) :
    TrieNode I V :=
  let root1 := pruneAt root pos
  let stop := livePos root1 pos
  match getAt root1 stop with
  | none => root1
  | some node =>
    match node.data, node.wild, node.cnt with
    | none, some childNode, some k =>
      let childNode1 := childNode.setCnt (some (childNode.cnt.getD 0 + k))
      match stop with
      | [] => root1
      | _ :: _ =>
        modifyAt root1 stop.dropLast fun parent => parent.setWild (some childNode1)
    | _, _, _ => root1

/-- Number of input tokens a node consumes on entry before yielding (source
lines 837-844): a wildcard-run node advances the cursor by `run length - 1`
further tokens, the edge having already accounted for one. -/
def entrySkip : TrieNode I V → Nat
  | n =>
    match n.cnt with
    | some c => c - 1
    | none => 0

/-- Matching engine (source `traverseSync`, lines 832-874) on a finite input
list, with the entry skip counted down explicitly.  A node reached through a
wildcard edge first advances the cursor by `run length - 1` further tokens
(stopping silently if the input runs out), then yields its terminal value if
present, then pulls one token and recurses into the wildcard edge and/or the
literal edge for that token — wildcard branch first.  The `teeIteratorSync`
split hands both branches the same remaining tokens, which for a finite
synchronous source is observationally the remaining list. -/
def traverseGo [DecidableEq I] (node : TrieNode I V) :
    Nat → List I → List V
  | 0, input =>
    (match node.data with | some v => [v] | none => []) ++
    match input with
    | [] => []
    | tok :: rest =>
      match node.wild, node.getLit tok with
      | some nextWildcardNode, none =>
        traverseGo nextWildcardNode nextWildcardNode.entrySkip rest
      | none, some nextRegularNode =>
        traverseGo nextRegularNode nextRegularNode.entrySkip rest
      | some nextWildcardNode, some nextRegularNode =>
        traverseGo nextWildcardNode nextWildcardNode.entrySkip rest ++
          traverseGo nextRegularNode nextRegularNode.entrySkip rest
      | none, none => []
  | _ + 1, [] => []
  | k + 1, _ :: rest => traverseGo node k rest

/-- Entry point of the matching traversal at a node. -/
def traverseSync [DecidableEq I] (node : TrieNode I V) (input : List I) : List V :=
  traverseGo node node.entrySkip input

mutual

/-- Number of reachable nodes whose terminal value slot is occupied
(the quantity that the spec says `size` counts). -/
def countData : TrieNode I V → Nat
  | mk d _ ow l =>
    (if d.isSome then 1 else 0) + countDataO ow + countDataL l

/-- Occupied-terminal count below an optional child. -/
def countDataO : Option (TrieNode I V) → Nat
  | none => 0
  | some n => countData n

/-- Occupied-terminal count below a list of literal edges. -/
def countDataL : List (I × TrieNode I V) → Nat
  | [] => 0
  | (_, n) :: r => countData n + countDataL r

end

mutual

/-- Well-formedness used as a hypothesis by the general theorems: every node
reachable through a wildcard edge carries a run length, and that run length
is positive.  All tries built by the public operations satisfy it. -/
def wfNode : TrieNode I V → Bool
  | mk _ _ ow l => wfWild ow && wfLits l

/-- Well-formedness of an optional wildcard child. -/
def wfWild : Option (TrieNode I V) → Bool
  | none => true
  | some c =>
    (match c.cnt with | some k => decide (1 ≤ k) | none => false) && wfNode c

/-- Well-formedness of a list of literal edges. -/
def wfLits : List (I × TrieNode I V) → Bool
  | [] => true
  | (_, c) :: r => wfNode c && wfLits r

end

mutual

/-- Subtree with every terminal value slot empty (freshly created subtrees
are of this shape). -/
def dataFree : TrieNode I V → Bool
  | mk d _ ow l => d.isNone && dataFreeO ow && dataFreeL l

/-- Data-freedom of an optional wildcard child. -/
def dataFreeO : Option (TrieNode I V) → Bool
  | none => true
  | some n => dataFree n

/-- Data-freedom of a list of literal edges. -/
def dataFreeL : List (I × TrieNode I V) → Bool
  | [] => true
  | (_, n) :: r => dataFree n && dataFreeL r

end

end TrieNode

/-- Counts of the wildcard segments are positive — true of every path built
from literals and the `w` constructor, which normalizes invalid counts. -/
def validPath : List (Seg I) → Bool
  | [] => true
  | .lit _ :: r => validPath r
  | .wc n :: r => decide (1 ≤ n) && validPath r

/-- Canonical form of a path: adjacent wildcard segments merged by adding
their counts.  Two paths are fragmentations of the same logical path exactly
when they have the same canonical form. -/
def normPath : List (Seg I) → List (Seg I)
  | [] => []
  | .lit i :: r => .lit i :: normPath r
  | .wc a :: r =>
    match normPath r with
    | .wc b :: r2 => .wc (a + b) :: r2
    | r2 => .wc a :: r2

/-- Trie (source `class Trie`, lines 115-328): the root node and the count of
live terminal values. -/
structure Trie (I V : Type) where
  root : TrieNode I V
  size : Int

namespace Trie

/-- Fresh empty trie (`new Trie()`). -/
def mkEmpty : Trie I V := ⟨TrieNode.empty, 0⟩

/-- Source `Trie.setSync` (lines 172-180): hard-seek the path, remember
whether the terminal slot was occupied, write the value, increment `size`
only for a fresh slot. -/
def setSync [DecidableEq I] (t : Trie I V) (path : List (Seg I)) (v : V) :
    Trie I V :=
  let r := TrieNode.hardSeekSet t.root 0 0 0 path fun _ => v
  ⟨r.1, t.size + if r.2 then 0 else 1⟩

/-- Source `Trie.setCallbackSync` (lines 205-216): like `setSync` but the new
value is `callback(previous value, exists)`. -/
def setCallbackSync [DecidableEq I] (t : Trie I V) (path : List (Seg I))
    (callback : Option V → Bool → V) : Trie I V :=
  let r := TrieNode.hardSeekSet t.root 0 0 0 path fun prev => callback prev prev.isSome
  ⟨r.1, t.size + if r.2 then 0 else 1⟩

/-- Source `Trie.addSync` / the constructor with initial entries (lines
122-126 and 145-150). -/
def addSync [DecidableEq I] (t : Trie I V) (entries : List (List (Seg I) × V)) :
    Trie I V :=
  entries.foldl (fun t e => t.setSync e.1 e.2) t

/-- Source `Trie.hasSync` (lines 230-232). -/
def hasSync [DecidableEq I] (t : Trie I V) (path : List (Seg I)) : Bool :=
  (TrieNode.softSeekSync t.root path).isSome

/-- Source `Trie.getSync` (lines 246-248): the terminal value of the found
node, or `none` when the path is absent. -/
def getSync [DecidableEq I] (t : Trie I V) (path : List (Seg I)) : Option V :=
  (TrieNode.softSeekSync t.root path).bind TrieNode.data

/-- Source `Trie.deleteSync` (lines 270-280): soft-seek recording the stack;
on a miss return `false` without mutation; otherwise clear the terminal
slot, run `cleanUp`, decrement `size`. -/
def deleteSync [DecidableEq I] (t : Trie I V) (path : List (Seg I)) :
    Trie I V × Bool :=
  match TrieNode.softSeekStack t.root 0 0 path with
  | none => (t, false)
  | some (pos, nWC, pWC) =>
    match TrieNode.getAt t.root pos with
    | none => (t, false)
    | some node =>
      if nWC ≠ pWC ∨ node.data.isNone then (t, false)
      else
        let root1 := TrieNode.modifyAt t.root pos fun n => n.setData none
        (⟨TrieNode.cleanUp root1 pos, t.size - 1⟩, true)

/-- Source `Trie.clear` (lines 284-287). -/
def clear (_ : Trie I V) : Trie I V := ⟨TrieNode.empty, 0⟩

/-- Source `Trie.matchSync` (lines 305-308). -/
def matchSync [DecidableEq I] (t : Trie I V) (input : List I) : List V :=
  TrieNode.traverseSync t.root input

/-- State-passing form of `hasSync`: the source method reads the tree through
`softSeekSync`, which contains no mutation, so the trie component is
returned unchanged. -/
def hasSyncOp [DecidableEq I] (t : Trie I V) (path : List (Seg I)) :
    Trie I V × Bool :=
  (t, t.hasSync path)

/-- State-passing form of `getSync`. -/
def getSyncOp [DecidableEq I] (t : Trie I V) (path : List (Seg I)) :
    Trie I V × Option V :=
  (t, t.getSync path)

/-- State-passing form of `matchSync`. -/
def matchSyncOp [DecidableEq I] (t : Trie I V) (input : List I) :
    Trie I V × List V :=
  (t, t.matchSync input)

end Trie

/-- Example trie from the spec's matching-completeness property: entries
`[[1,2],"v1"], [[2,2],"v2"], [[1,w(5),2],"v3"], [[1,w(10)],"v4"]`. -/
def exampleTrie : Trie Nat String :=
  Trie.mkEmpty.addSync
    [([Seg.lit 1, Seg.lit 2], "v1"), ([Seg.lit 2, Seg.lit 2], "v2"),
     ([Seg.lit 1, w 5, Seg.lit 2], "v3"), ([Seg.lit 1, w 10], "v4")]

/-- Trie holding `[1,w(5),2] ↦ "v2"`, `[1,w(10)] ↦ "v3"` and `[1,w(5)] ↦ "x"`:
the node reached by `[1,w(5)]` carries the literal edge `2`, the wildcard
edge toward `[1,w(10)]`, and a terminal value. -/
def mergeBugTrie : Trie Nat String :=
  Trie.mkEmpty.addSync
    [([Seg.lit 1, w 5, Seg.lit 2], "v2"), ([Seg.lit 1, w 10], "v3"),
     ([Seg.lit 1, w 5], "x")]

/-- The same trie after `deleteSync([1, w(5)])`. -/
def mergeBugTrieAfter : Trie Nat String :=
  (mergeBugTrie.deleteSync [Seg.lit 1, w 5]).1

/-!
Model of the stream-splitting primitive `teeIteratorSync` (source lines
411-463; `teeIterator`, lines 339-400, has the same buffer, `closed`, `done`
and `return()` logic).  The shared linked list of chunks becomes `buffer`,
each branch's cursor becomes an index into it, the upstream iterator becomes
the list of values it has yet to produce, and `retCalls` counts the
`iterator.return?.()` invocations performed by the `finally` blocks.
-/

/-- State of one `teeIteratorSync` instance. -/
structure TeeState (T : Type) where
  upstream : List T
  buffer : List T
  pos0 : Nat
  pos1 : Nat
  closed0 : Bool
  closed1 : Bool
  done : Bool
  retCalls : Nat

/-- Initial tee state over a given upstream source. -/
def TeeState.init (src : List T) : TeeState T :=
  ⟨src, [], 0, 0, false, false, false, 0⟩

/-- Observable event on a tee: a consumer advances branch `i` (one `next()`
call on the branch generator) or permanently stops it (abandonment: the
consumer's `return()` on the branch generator, which runs its `finally`
block). -/
inductive TeeEv where
  | pull (i : Bool)
  | close (i : Bool)

namespace TeeState

/-- Whether branch `i` is closed. -/
def closedAt (s : TeeState T) (i : Bool) : Bool :=
  if i then s.closed1 else s.closed0

/-- Cursor of branch `i`. -/
def posAt (s : TeeState T) (i : Bool) : Nat :=
  if i then s.pos1 else s.pos0

/-- Advance the cursor of branch `i` by one buffered chunk. -/
def bumpPos (s : TeeState T) (i : Bool) : TeeState T :=
  if i then { s with pos1 := s.pos1 + 1 } else { s with pos0 := s.pos0 + 1 }

/-- The `finally` block of `branch(i)` (source lines 452-459): mark the
branch closed; call the upstream `iterator.return?.()` only if the source
has not signalled `done` and the other branch is already closed.  A
generator's `finally` runs at most once, so a second close is a no-op. -/
def finalize (s : TeeState T) (i : Bool) : TeeState T :=
  if s.closedAt i then s
  else
    let s1 := if i then { s with closed1 := true } else { s with closed0 := true }
    if !s.done && s.closedAt (!i) then { s1 with retCalls := s1.retCalls + 1 }
    else s1

/-- One step of the tee state machine.  A `pull` on a live branch either
reads the next buffered chunk, or runs `next()` (source lines 426-438):
upstream value appended to the buffer and then read, or upstream exhaustion
recorded in `done`, after which the branch's loop returns and its `finally`
runs. -/
def step (s : TeeState T) : TeeEv → TeeState T
  | .close i => s.finalize i
  | .pull i =>
    if s.closedAt i then s
    else if s.posAt i < s.buffer.length then s.bumpPos i
    else
      match s.upstream with
      | x :: r => ({ s with upstream := r, buffer := s.buffer ++ [x] }).bumpPos i
      | [] => { s with done := true }.finalize i

/-- Run the tee state machine over a list of events. -/
def run (src : List T) (evs : List TeeEv) : TeeState T :=
  evs.foldl step (init src)

end TeeState

/-! ## Basic lemmas -/

namespace TrieNode

@[simp] theorem data_mk (d : Option V) (c : Option Nat) (ow : Option (TrieNode I V))
    (l : List (I × TrieNode I V)) : (mk d c ow l).data = d := rfl

@[simp] theorem cnt_mk (d : Option V) (c : Option Nat) (ow : Option (TrieNode I V))
    (l : List (I × TrieNode I V)) : (mk d c ow l).cnt = c := rfl

@[simp] theorem wild_mk (d : Option V) (c : Option Nat) (ow : Option (TrieNode I V))
    (l : List (I × TrieNode I V)) : (mk d c ow l).wild = ow := rfl

@[simp] theorem lits_mk (d : Option V) (c : Option Nat) (ow : Option (TrieNode I V))
    (l : List (I × TrieNode I V)) : (mk d c ow l).lits = l := rfl

@[simp] theorem wild_setWild (n : TrieNode I V) (ow : Option (TrieNode I V)) :
    (n.setWild ow).wild = ow := by cases n; rfl

@[simp] theorem data_setWild (n : TrieNode I V) (ow : Option (TrieNode I V)) :
    (n.setWild ow).data = n.data := by cases n; rfl

@[simp] theorem cnt_setWild (n : TrieNode I V) (ow : Option (TrieNode I V)) :
    (n.setWild ow).cnt = n.cnt := by cases n; rfl

@[simp] theorem lits_setWild (n : TrieNode I V) (ow : Option (TrieNode I V)) :
    (n.setWild ow).lits = n.lits := by cases n; rfl

@[simp] theorem data_setCnt (n : TrieNode I V) (c : Option Nat) :
    (n.setCnt c).data = n.data := by cases n; rfl

@[simp] theorem cnt_setCnt (n : TrieNode I V) (c : Option Nat) :
    (n.setCnt c).cnt = c := by cases n; rfl

@[simp] theorem wild_setCnt (n : TrieNode I V) (c : Option Nat) :
    (n.setCnt c).wild = n.wild := by cases n; rfl

@[simp] theorem lits_setCnt (n : TrieNode I V) (c : Option Nat) :
    (n.setCnt c).lits = n.lits := by cases n; rfl

@[simp] theorem data_setData (n : TrieNode I V) (d : Option V) :
    (n.setData d).data = d := by cases n; rfl

@[simp] theorem cnt_setData (n : TrieNode I V) (d : Option V) :
    (n.setData d).cnt = n.cnt := by cases n; rfl

@[simp] theorem wild_setData (n : TrieNode I V) (d : Option V) :
    (n.setData d).wild = n.wild := by cases n; rfl

@[simp] theorem lits_setData (n : TrieNode I V) (d : Option V) :
    (n.setData d).lits = n.lits := by cases n; rfl

theorem chainGet_succ (A : TrieNode I V) (d : Nat) :
    chainGet A (d + 1) = (chainGet A d).bind wild := by
  induction d generalizing A with
  | zero =>
    obtain ⟨dt, c, ow, l⟩ := A
    cases ow <;> simp [chainGet]
  | succ d ih =>
    obtain ⟨dt, c, ow, l⟩ := A
    cases ow with
    | none => simp [chainGet]
    | some ch =>
      show chainGet ch (d + 1) = (chainGet ch d).bind wild
      exact ih ch

theorem chainGet_isSome_of_succ {A : TrieNode I V} {d : Nat} {p : TrieNode I V}
    (h : chainGet A (d + 1) = some p) : ∃ q, chainGet A d = some q := by
  rw [chainGet_succ] at h
  cases hq : chainGet A d with
  | none => rw [hq] at h; simp at h
  | some q => exact ⟨q, rfl⟩

theorem chainGet_chainMod {A : TrieNode I V} {d : Nat} {p : TrieNode I V}
    (f : TrieNode I V → TrieNode I V) (h : chainGet A d = some p) :
    chainGet (chainMod A d f) d = some (f p) := by
  induction d generalizing A with
  | zero =>
    simp [chainGet] at h
    subst h
    simp [chainMod, chainGet]
  | succ d ih =>
    obtain ⟨dt, c, ow, l⟩ := A
    cases ow with
    | none => simp [chainGet] at h
    | some ch =>
      simp only [chainGet] at h
      have h2 := ih (A := ch) h
      show chainGet ((mk dt c (some ch) l).setWild (some (chainMod ch d f))) (d + 1) =
        some (f p)
      simpa [chainGet, setWild] using h2

variable [DecidableEq I]

@[simp] theorem data_setLit (n : TrieNode I V) (i : I) (c : TrieNode I V) :
    (n.setLit i c).data = n.data := by cases n; rfl

@[simp] theorem cnt_setLit (n : TrieNode I V) (i : I) (c : TrieNode I V) :
    (n.setLit i c).cnt = n.cnt := by cases n; rfl

@[simp] theorem wild_setLit (n : TrieNode I V) (i : I) (c : TrieNode I V) :
    (n.setLit i c).wild = n.wild := by cases n; rfl

@[simp] theorem lits_setLit (n : TrieNode I V) (i : I) (c : TrieNode I V) :
    (n.setLit i c).lits = setL n.lits i c := by cases n; rfl

@[simp] theorem lookupL_setL (l : List (I × TrieNode I V)) (i : I) (c : TrieNode I V) :
    lookupL (setL l i c) i = some c := by
  induction l with
  | nil => simp [setL, lookupL]
  | cons hd tl ih =>
    obtain ⟨j, m⟩ := hd
    by_cases h : j = i <;> simp [setL, lookupL, h, ih]

theorem lookupL_setL_ne (l : List (I × TrieNode I V)) (i i2 : I) (c : TrieNode I V)
    (h : i ≠ i2) : lookupL (setL l i c) i2 = lookupL l i2 := by
  induction l with
  | nil => simp [setL, lookupL, h]
  | cons hd tl ih =>
    obtain ⟨j, m⟩ := hd
    by_cases h2 : j = i
    · subst h2
      simp [setL, lookupL, h]
    · simp [setL, h2, lookupL, ih]

@[simp] theorem getLit_setLit (n : TrieNode I V) (i : I) (c : TrieNode I V) :
    (n.setLit i c).getLit i = some c := by cases n; simp [getLit, setLit]

theorem getLit_setLit_ne (n : TrieNode I V) (i i2 : I) (c : TrieNode I V) (h : i ≠ i2) :
    (n.setLit i c).getLit i2 = n.getLit i2 := by
  cases n; simp [getLit, setLit, lookupL_setL_ne _ _ _ _ h]

end TrieNode

/-! ## C1 / C2: the delete re-merge step detaches live branches -/

/-- C1: evaluation of the code at the failing input.  In `mergeBugTrie` the
paths `P = [1,w(5)]` and `Q = [1,w(5),2]` are stored and are not
fragmentations of the same logical path, `get(Q)` returns its value `"v2"`,
and `delete(P)` reports success — yet afterwards `get(Q)` returns nothing:
`cleanUp`'s re-merge step detached the node carrying the live literal branch
for `Q`. -/
theorem delete_detaches_live_literal_branch :
    mergeBugTrie.getSync [Seg.lit 1, w 5, Seg.lit 2] = some "v2" ∧
    (mergeBugTrie.deleteSync [Seg.lit 1, w 5]).2 = true ∧
    mergeBugTrieAfter.getSync [Seg.lit 1, w 5, Seg.lit 2] = none ∧
    mergeBugTrieAfter.getSync [Seg.lit 1, w 10] = some "v3" :=
  ⟨rfl, rfl, rfl, rfl⟩

/-- C2: evaluation of the code at the failing input.  After the constructor
and one `deleteSync`, the trie reports `size = 2` while only one reachable
node still has an occupied terminal slot — the entry detached by the
re-merge step was never subtracted. -/
theorem size_differs_from_reachable_terminals :
    mergeBugTrieAfter.size = 2 ∧
    TrieNode.countData mergeBugTrieAfter.root = 1 :=
  ⟨rfl, rfl⟩

/-! ## C3: the matching-completeness example -/

/-- C3 counterexample: on the spec's example trie, matching the literal
6-token sequence `[1,1,1,1,1,2]` does not yield `["v3"]` — the pattern
`[1,w(5),2]` spans 7 tokens, so the match yields nothing. -/
theorem match_six_tokens_yields_nothing :
    exampleTrie.matchSync [1, 1, 1, 1, 1, 2] = [] ∧
    exampleTrie.matchSync [1, 1, 1, 1, 1, 2] ≠ ["v3"] :=
  ⟨rfl, by decide⟩

/-- C3 (amended): on the spec's example trie, `matchSync [1,2]` yields
exactly `["v1"]`; `matchSync` over `[1,1,1,1,1,1,2]` (the token 1 followed by
five tokens and then the token 2) yields exactly `["v3"]`; and `matchSync`
over `[1,0,0,0,0,0,0,0,0,0,0]` (ten tokens after the token 1) yields exactly
`["v4"]`. -/
theorem match_example_amended :
    exampleTrie.matchSync [1, 2] = ["v1"] ∧
    exampleTrie.matchSync [1, 1, 1, 1, 1, 1, 2] = ["v3"] ∧
    exampleTrie.matchSync [1, 0, 0, 0, 0, 0, 0, 0, 0, 0, 0] = ["v4"] :=
  ⟨rfl, rfl, rfl⟩

/-! ## C8: reads are side-effect-free -/

/-- C8: the read operations return the trie unchanged.  The source's
`hasSync` / `getSync` / `matchSync` paths (`softSeekStep`, `softSeekSync`,
`traverseSync`, `teeIteratorSync`) contain no write to any node, so their
embeddings are functions of the tree; the state-passing forms hand back the
same `Trie` value (same root, same size) under every outcome, including
failed lookups and partially consumed matches. -/
theorem reads_leave_trie_unchanged {I V : Type} [DecidableEq I]
    (t : Trie I V) (path : List (Seg I)) (input : List I) :
    (t.hasSyncOp path).1 = t ∧ (t.getSyncOp path).1 = t ∧
    (t.matchSyncOp input).1 = t ∧
    ∀ k, ((t.matchSyncOp input).2.take k) = (t.matchSync input).take k :=
  ⟨rfl, rfl, rfl, fun _ => rfl⟩

/-! ## C9: tee cancellation -/

/-- Invariant of the tee state machine: the upstream `return()` has been
invoked exactly once when both branches are closed and the upstream has not
signalled exhaustion, and never otherwise. -/
theorem teeStep_inv {T : Type} (s : TeeState T) (e : TeeEv)
    (h : s.retCalls = if s.closed0 && s.closed1 && !s.done then 1 else 0) :
    (s.step e).retCalls =
      if (s.step e).closed0 && (s.step e).closed1 && !(s.step e).done then 1
      else 0 := by
  obtain ⟨up, buf, p0, p1, c0, c1, dn, rc⟩ := s
  cases e with
  | close i =>
    cases i <;> cases c0 <;> cases c1 <;> cases dn <;>
      simp_all [TeeState.step, TeeState.finalize, TeeState.closedAt]
  | pull i =>
    cases i <;> cases c0 <;> cases c1 <;> cases dn <;>
      simp_all [TeeState.step, TeeState.finalize, TeeState.closedAt,
        TeeState.posAt, TeeState.bumpPos] <;>
      split <;>
      simp_all <;>
      (cases up <;> simp_all [TeeState.finalize, TeeState.closedAt, TeeState.bumpPos])

/-- Invariant holds after any run of the tee state machine. -/
theorem teeRun_inv {T : Type} (src : List T) (evs : List TeeEv) :
    (TeeState.run src evs).retCalls =
      if (TeeState.run src evs).closed0 && (TeeState.run src evs).closed1 &&
          !(TeeState.run src evs).done then 1
      else 0 := by
  suffices h : ∀ (s : TeeState T),
      s.retCalls = (if s.closed0 && s.closed1 && !s.done then 1 else 0) →
      (evs.foldl TeeState.step s).retCalls =
        (if (evs.foldl TeeState.step s).closed0 && (evs.foldl TeeState.step s).closed1 &&
            !(evs.foldl TeeState.step s).done then 1 else 0) by
    exact h _ (by simp [TeeState.init])
  induction evs with
  | nil => intro s hs; simpa using hs
  | cons e r ih =>
    intro s hs
    exact ih _ (teeStep_inv s e hs)

/-- C9: once both branch cursors of a tee have permanently stopped consuming,
the upstream iterator's `return()` has been called exactly once — and zero
times when the upstream had already reported natural exhaustion
(`done: true`).  `done` is frozen once both branches are closed, so the final
`done` flag records whether exhaustion had been signalled by then. -/
theorem tee_return_called_once {T : Type} (src : List T) (evs : List TeeEv)
    (h0 : (TeeState.run src evs).closed0 = true)
    (h1 : (TeeState.run src evs).closed1 = true) :
    (TeeState.run src evs).retCalls =
      if (TeeState.run src evs).done then 0 else 1 := by
  have h := teeRun_inv src evs
  rw [h0, h1] at h
  cases hd : (TeeState.run src evs).done <;> simp_all

/-- Witness for the tee-cancellation theorem: a source with one pending value
whose two branches are abandoned early gets exactly one `return()` call;
a source first drained by branch 0 gets none. -/
theorem tee_return_called_once_witness :
    ((TeeState.run [0] [TeeEv.close false, TeeEv.close true]).retCalls =
      if (TeeState.run [0] [TeeEv.close false, TeeEv.close true]).done then 0
      else 1) ∧
    ((TeeState.run ([] : List Nat)
        [TeeEv.pull false, TeeEv.close true]).retCalls =
      if (TeeState.run ([] : List Nat) [TeeEv.pull false, TeeEv.close true]).done
        then 0 else 1) :=
  ⟨tee_return_called_once [0] [TeeEv.close false, TeeEv.close true] rfl rfl,
   tee_return_called_once [] [TeeEv.pull false, TeeEv.close true] rfl rfl⟩

/-! ## C5: resolver split correctness -/

/-- C5: whenever the resolver is reached with `nodeWildcardCount` strictly
greater than `pathWildcardCount` — the requested run ends strictly inside the
current node's run, i.e. `nWC - c < pWC < nWC` for the node's run length
`c` — it splits the node: a fresh node with run length `c - (nWC - pWC)`
becomes the parent's wildcard edge, the original node becomes that fresh
node's wildcard edge carrying run length `nWC - pWC` while keeping its
terminal value and all other edges unchanged (`setCnt` touches nothing
else), and both run lengths are positive. -/
theorem resolver_split_correct {I V : Type} [DecidableEq I]
    (A : TrieNode I V) (q : Nat) (node : TrieNode I V) (c nWC pWC : Nat)
    (hget : TrieNode.chainGet A (q + 1) = some node)
    (hcnt : node.cnt = some c)
    (hlt : pWC < nWC) (hin : nWC - c < pWC) :
    TrieNode.resolveNode A (q + 1) nWC pWC =
      (TrieNode.chainMod A q fun parent =>
        parent.setWild (some (TrieNode.mk none (some (c - (nWC - pWC)))
          (some (node.setCnt (some (nWC - pWC)))) [])), q + 1) ∧
    TrieNode.chainGet
      (TrieNode.resolveNode A (q + 1) nWC pWC).1 (q + 1) =
      some (TrieNode.mk none (some (c - (nWC - pWC)))
        (some (node.setCnt (some (nWC - pWC)))) []) ∧
    0 < nWC - pWC ∧ 0 < c - (nWC - pWC) := by
  have hnotlt : ¬ nWC < pWC := by omega
  have heq : TrieNode.resolveNode A (q + 1) nWC pWC =
      (TrieNode.chainMod A q fun parent =>
        parent.setWild (some (TrieNode.mk none (some (c - (nWC - pWC)))
          (some (node.setCnt (some (nWC - pWC)))) [])), q + 1) := by
    simp only [TrieNode.resolveNode, hnotlt, if_false, hlt, if_true, hget, hcnt]
    simp
  refine ⟨heq, ?_, by omega, by omega⟩
  rw [heq]
  obtain ⟨p, hp⟩ := TrieNode.chainGet_isSome_of_succ hget
  rw [TrieNode.chainGet_succ, TrieNode.chainGet_chainMod _ hp]
  simp

/-- Witness for the resolver-split theorem at a concrete input: anchor with a
single chain child of run length 5, `nWC = 5`, `pWC = 3`. -/
theorem resolver_split_correct_witness :
    TrieNode.resolveNode
        (TrieNode.mk (none : Option Nat) none
          (some (TrieNode.mk none (some 5) none [])) ([] : List (Nat × TrieNode Nat Nat)))
        1 5 3 =
      (TrieNode.chainMod
          (TrieNode.mk none none (some (TrieNode.mk none (some 5) none [])) [])
          0 fun parent =>
          parent.setWild (some (TrieNode.mk none (some 3)
            (some ((TrieNode.mk none (some 5) none []).setCnt (some 2))) [])), 1) ∧
    TrieNode.chainGet
        (TrieNode.resolveNode
          (TrieNode.mk (none : Option Nat) none
            (some (TrieNode.mk none (some 5) none []))
            ([] : List (Nat × TrieNode Nat Nat))) 1 5 3).1 1 =
      some (TrieNode.mk none (some 3)
        (some ((TrieNode.mk none (some 5) none []).setCnt (some 2))) []) ∧
    0 < 5 - 3 ∧ 0 < 5 - (5 - 3) := by
  have h := resolver_split_correct
    (TrieNode.mk (none : Option Nat) none
      (some (TrieNode.mk none (some 5) none [])) ([] : List (Nat × TrieNode Nat Nat)))
    0 (TrieNode.mk none (some 5) none []) 5 5 3 rfl rfl (by omega) (by omega)
  exact h

/-! ## C7: lookup exactness -/

namespace TrieNode

theorem chainWalk_wild_none {node : TrieNode I V} (h : node.wild = none)
    (nWC pWC : Nat) : chainWalk node nWC pWC = (0, node, nWC) := by
  obtain ⟨d, c, ow, l⟩ := node
  simp only [wild_mk] at h
  subst h
  rfl

variable [DecidableEq I]

theorem softSeekLoop_append (s1 s2 : List (Seg I)) (node : TrieNode I V)
    (a b : Nat) :
    softSeekLoop node a b (s1 ++ s2) =
      (softSeekLoop node a b s1).bind fun r => softSeekLoop r.1 r.2.1 r.2.2 s2 := by
  induction s1 generalizing node a b with
  | nil => simp [softSeekLoop]
  | cons s rest ih =>
    cases s with
    | lit i =>
      by_cases hab : a = b
      · simp only [List.cons_append, softSeekLoop, hab]
        cases hl : (node.getLit i) with
        | none => simp
        | some child => simpa using ih child b b
      · simp [softSeekLoop, hab]
    | wc k =>
      simp only [List.cons_append, softSeekLoop]
      exact ih _ _ _

/-- Once the wildcard chain has run out with the accumulated count short of
the requested count, the soft seek can never recover: the loop either fails
or ends at the same node with the deficit still open. -/
theorem softSeekLoop_stuck (rest : List (Seg I)) (node : TrieNode I V)
    (a b : Nat) (hab : a < b) (hw : node.wild = none) :
    softSeekLoop node a b rest = none ∨
      ∃ b2, softSeekLoop node a b rest = some (node, a, b2) ∧ a < b2 := by
  induction rest generalizing b with
  | nil => exact Or.inr ⟨b, rfl, hab⟩
  | cons s rest ih =>
    cases s with
    | lit i =>
      have : a ≠ b := by omega
      simp [softSeekLoop, this]
    | wc k =>
      simp only [softSeekLoop, chainWalk_wild_none hw]
      exact ih (b + k) (by omega)

end TrieNode

/-- C7: the lookup engine returns a negative result exactly in the spec's
four cases and the stored value otherwise.  Given the loop state after any
prefix of the path: (i) if the wildcard chain has run out
(`node.wild = none`) with the accumulated `nodeWildcardCount` short of the
requested `pathWildcardCount`, the lookup fails; (ii) if a literal segment
arrives while the counts differ, the lookup fails; (iii) if the path ends
with the counts different (mid-run), the lookup fails; (iv) if the reached
node's terminal slot is unoccupied, the lookup fails; (v) otherwise `get`
returns the stored value and `has` returns `true`. -/
theorem lookup_exactness {I V : Type} [DecidableEq I] (t : Trie I V)
    (path : List (Seg I)) :
    (∀ s1 s2 n a b, path = s1 ++ s2 →
        TrieNode.softSeekLoop t.root 0 0 s1 = some (n, a, b) → a < b →
        n.wild = none →
        t.getSync path = none ∧ t.hasSync path = false) ∧
    (∀ s1 i s2 n a b, path = s1 ++ Seg.lit i :: s2 →
        TrieNode.softSeekLoop t.root 0 0 s1 = some (n, a, b) → a ≠ b →
        t.getSync path = none ∧ t.hasSync path = false) ∧
    (∀ n a b, TrieNode.softSeekLoop t.root 0 0 path = some (n, a, b) → a ≠ b →
        t.getSync path = none ∧ t.hasSync path = false) ∧
    (∀ n a b, TrieNode.softSeekLoop t.root 0 0 path = some (n, a, b) → a = b →
        n.data = none → t.getSync path = none ∧ t.hasSync path = false) ∧
    (∀ n a b v, TrieNode.softSeekLoop t.root 0 0 path = some (n, a, b) → a = b →
        n.data = some v → t.getSync path = some v ∧ t.hasSync path = true) := by
  have hget : ∀ r, TrieNode.softSeekLoop t.root 0 0 path = r →
      TrieNode.softSeekSync t.root path =
        (match r with
         | none => none
         | some (node, nWC, pWC) =>
           if nWC ≠ pWC ∨ node.data.isNone then none else some node) := by
    intro r hr
    simp [TrieNode.softSeekSync, hr]
  refine ⟨?_, ?_, ?_, ?_, ?_⟩
  · intro s1 s2 n a b hsplit hpre hab hw
    subst hsplit
    have hfull := TrieNode.softSeekLoop_append s1 s2 t.root 0 0
    rw [hpre] at hfull
    simp only [Option.some_bind] at hfull
    rcases TrieNode.softSeekLoop_stuck s2 n a b hab hw with hnone | ⟨b2, hsome, hb2⟩
    · rw [hnone] at hfull
      have := hget _ hfull
      constructor
      · simp [Trie.getSync, this]
      · simp [Trie.hasSync, this]
    · rw [hsome] at hfull
      have := hget _ hfull
      have hne : a ≠ b2 := by omega
      constructor
      · simp [Trie.getSync, this, hne]
      · simp [Trie.hasSync, this, hne]
  · intro s1 i s2 n a b hsplit hpre hab
    subst hsplit
    have hfull := TrieNode.softSeekLoop_append s1 (Seg.lit i :: s2) t.root 0 0
    rw [hpre] at hfull
    simp only [Option.some_bind] at hfull
    have hstep : TrieNode.softSeekLoop n a b (Seg.lit i :: s2) = none := by
      simp [TrieNode.softSeekLoop, hab]
    rw [hstep] at hfull
    have := hget _ hfull
    constructor
    · simp [Trie.getSync, this]
    · simp [Trie.hasSync, this]
  · intro n a b hloop hab
    have := hget _ hloop
    constructor
    · simp [Trie.getSync, this, hab]
    · simp [Trie.hasSync, this, hab]
  · intro n a b hloop hab hdata
    have := hget _ hloop
    constructor
    · simp [Trie.getSync, this, hdata]
    · simp [Trie.hasSync, this, hdata]
  · intro n a b v hloop hab hdata
    subst hab
    have := hget _ hloop
    constructor
    · simp [Trie.getSync, this, hdata]
    · simp [Trie.hasSync, this, hdata]

/-- Witness for the lookup-exactness theorem on the example trie: one
concrete instance of each failure case and of the success case. -/
theorem lookup_exactness_witness :
    (exampleTrie.getSync [Seg.lit 1, w 11] = none ∧
      exampleTrie.hasSync [Seg.lit 1, w 11] = false) ∧
    (exampleTrie.getSync [Seg.lit 1, w 3, Seg.lit 2] = none ∧
      exampleTrie.hasSync [Seg.lit 1, w 3, Seg.lit 2] = false) ∧
    (exampleTrie.getSync [Seg.lit 1, w 3] = none ∧
      exampleTrie.hasSync [Seg.lit 1, w 3] = false) ∧
    (exampleTrie.getSync [Seg.lit 1, w 5] = none ∧
      exampleTrie.hasSync [Seg.lit 1, w 5] = false) ∧
    (exampleTrie.getSync [Seg.lit 1, w 5, Seg.lit 2] = some "v3" ∧
      exampleTrie.hasSync [Seg.lit 1, w 5, Seg.lit 2] = true) :=
  ⟨(lookup_exactness exampleTrie [Seg.lit 1, w 11]).1
      [Seg.lit 1, w 11] [] _ _ _ rfl rfl (by decide) rfl,
   (lookup_exactness exampleTrie [Seg.lit 1, w 3, Seg.lit 2]).2.1
      [Seg.lit 1, w 3] 2 [] _ _ _ rfl rfl (by decide),
   (lookup_exactness exampleTrie [Seg.lit 1, w 3]).2.2.1 _ _ _ rfl (by decide),
   (lookup_exactness exampleTrie [Seg.lit 1, w 5]).2.2.2.1 _ _ _ rfl rfl rfl,
   (lookup_exactness exampleTrie [Seg.lit 1, w 5, Seg.lit 2]).2.2.2.2 _ _ _ _
      rfl rfl rfl⟩

/-! ## Chain-walk facts and modification lemmas -/

namespace TrieNode

theorem walk_of_ge {A : TrieNode I V} {a p : Nat} (h : p ≤ a) :
    chainWalk A a p = (0, A, a) := by
  obtain ⟨d, c, ow, l⟩ := A
  cases ow with
  | none => rfl
  | some ch => simp [chainWalk, Nat.not_lt.mpr h]

theorem walk_chainGet {A : TrieNode I V} {a p : Nat} :
    chainGet A (chainWalk A a p).1 = some (chainWalk A a p).2.1 := by
  induction A, a, p using chainWalk.induct with
  | case1 d c l a p ch hlt _ ih =>
    simpa [chainWalk, hlt, chainGet] using ih
  | case2 d c l a p ch hlt _ =>
    simp [chainWalk, hlt, chainGet]
  | case3 d c l a p _ =>
    simp [chainWalk, chainGet]

theorem walk_stop {A : TrieNode I V} {a p : Nat} :
    p ≤ (chainWalk A a p).2.2 ∨ (chainWalk A a p).2.1.wild = none := by
  induction A, a, p using chainWalk.induct with
  | case1 d c l a p ch hlt _ ih =>
    simpa [chainWalk, hlt] using ih
  | case2 d c l a p ch hlt _ =>
    simp [chainWalk, hlt]
    omega
  | case3 d c l a p _ =>
    simp [chainWalk]

theorem walk_zero {A : TrieNode I V} {a p : Nat}
    (h : (chainWalk A a p).1 = 0) :
    (chainWalk A a p).2.1 = A ∧ (chainWalk A a p).2.2 = a := by
  induction A, a, p using chainWalk.induct with
  | case1 d c l a p ch hlt _ ih =>
    simp [chainWalk, hlt] at h
  | case2 d c l a p ch hlt _ =>
    simp [chainWalk, hlt]
  | case3 d c l a p _ =>
    simp [chainWalk]

theorem walk_mono {A : TrieNode I V} {a p : Nat} : a ≤ (chainWalk A a p).2.2 := by
  induction A, a, p using chainWalk.induct with
  | case1 d c l a p ch hlt _ ih =>
    simp only [chainWalk, hlt, if_true]
    omega
  | case2 d c l a p ch hlt _ =>
    simp [chainWalk, hlt]
  | case3 d c l a p _ =>
    simp [chainWalk]

theorem walk_pos_entry {A : TrieNode I V} {a p : Nat}
    (h : 0 < (chainWalk A a p).1) : a < p := by
  by_contra hc
  rw [walk_of_ge (Nat.not_lt.mp hc)] at h
  simp at h

theorem walk_enter {A : TrieNode I V} {a p : Nat}
    (h : 0 < (chainWalk A a p).1) :
    (chainWalk A a p).2.2 - (chainWalk A a p).2.1.cnt.getD 1 < p ∧
      (chainWalk A a p).2.1.cnt.getD 1 ≤ (chainWalk A a p).2.2 := by
  induction A, a, p using chainWalk.induct with
  | case1 d c l a p ch hlt _ ih =>
    by_cases hz : (chainWalk ch (a + ch.cnt.getD 1) p).1 = 0
    · obtain ⟨h1, h2⟩ := walk_zero hz
      simp only [chainWalk, hlt, if_true]
      rw [h1, h2]
      constructor <;> omega
    · have := ih (Nat.pos_of_ne_zero hz)
      simpa [chainWalk, hlt] using this
  | case2 d c l a p ch hlt _ =>
    simp [chainWalk, hlt] at h
  | case3 d c l a p _ =>
    simp [chainWalk] at h

theorem chainMod_zero (A : TrieNode I V) (f : TrieNode I V → TrieNode I V) :
    chainMod A 0 f = f A := rfl

theorem chainMod_add (A : TrieNode I V) (d j : Nat)
    (f : TrieNode I V → TrieNode I V) :
    chainMod A (d + j) f = chainMod A d (fun n => chainMod n j f) := by
  induction d generalizing A with
  | zero => simp [chainMod]
  | succ d ih =>
    obtain ⟨dt, c, ow, l⟩ := A
    cases ow with
    | none =>
      have : d + 1 + j = (d + j) + 1 := by omega
      rw [this]
      simp [chainMod]
    | some ch =>
      have : d + 1 + j = (d + j) + 1 := by omega
      rw [this]
      simp only [chainMod, wild_mk]
      rw [ih ch]

theorem chainMod_chainMod (A : TrieNode I V) (d : Nat)
    (f g : TrieNode I V → TrieNode I V) :
    chainMod (chainMod A d f) d g = chainMod A d (fun n => g (f n)) := by
  induction d generalizing A with
  | zero => simp [chainMod]
  | succ d ih =>
    obtain ⟨dt, c, ow, l⟩ := A
    cases ow with
    | none => simp [chainMod]
    | some ch =>
      simp only [chainMod, wild_mk, setWild, wild_setWild]
      rw [ih ch]

theorem chainMod_congr {A : TrieNode I V} {d : Nat} {p : TrieNode I V}
    (f g : TrieNode I V → TrieNode I V) (h : chainGet A d = some p)
    (hfg : f p = g p) : chainMod A d f = chainMod A d g := by
  induction d generalizing A with
  | zero =>
    simp [chainGet] at h
    subst h
    simp [chainMod, hfg]
  | succ d ih =>
    obtain ⟨dt, c, ow, l⟩ := A
    cases ow with
    | none => simp [chainMod]
    | some ch =>
      simp only [chainGet] at h
      simp only [chainMod, wild_mk]
      rw [ih h]

theorem chainMod_succ_cnt (A : TrieNode I V) (d : Nat)
    (f : TrieNode I V → TrieNode I V) :
    (chainMod A (d + 1) f).cnt = A.cnt := by
  obtain ⟨dt, c, ow, l⟩ := A
  cases ow <;> simp [chainMod]

theorem chainMod_succ_wild_isSome (A : TrieNode I V) (d : Nat)
    (f : TrieNode I V → TrieNode I V) {ch : TrieNode I V}
    (h : A.wild = some ch) :
    (chainMod A (d + 1) f).wild = some (chainMod ch d f) := by
  obtain ⟨dt, c, ow, l⟩ := A
  simp only [wild_mk] at h
  subst h
  simp [chainMod]

theorem walk_cons {dt : Option V} {cc : Option Nat} {l : List (I × TrieNode I V)}
    {ch : TrieNode I V} {a p : Nat} (h : a < p) :
    chainWalk (mk dt cc (some ch) l) a p =
      ((chainWalk ch (a + ch.cnt.getD 1) p).1 + 1,
        (chainWalk ch (a + ch.cnt.getD 1) p).2) := by
  simp [chainWalk, h]

theorem walk_none {dt : Option V} {cc : Option Nat} {l : List (I × TrieNode I V)}
    (a p : Nat) :
    chainWalk (mk dt cc none l) a p = (0, mk dt cc none l, a) := rfl

theorem chainMod_cons {dt : Option V} {cc : Option Nat}
    {l : List (I × TrieNode I V)} {ch : TrieNode I V} (j : Nat)
    (f : TrieNode I V → TrieNode I V) :
    chainMod (mk dt cc (some ch) l) (j + 1) f =
      mk dt cc (some (chainMod ch j f)) l := by
  simp [chainMod, setWild]

/-- Walk over a tree modified at the stopping depth: when the original walk
stopped because the count was reached, a count-preserving rewrite of the
stopping node does not change the walk. -/
theorem walk_chainMod_stop {A : TrieNode I V} {a p : Nat}
    (f : TrieNode I V → TrieNode I V) (hf : ∀ n, (f n).cnt = n.cnt)
    (hstop : p ≤ (chainWalk A a p).2.2) :
    chainWalk (chainMod A (chainWalk A a p).1 f) a p =
      ((chainWalk A a p).1, f (chainWalk A a p).2.1, (chainWalk A a p).2.2) := by
  induction A, a, p using chainWalk.induct with
  | case1 d c l a p ch hlt _ ih =>
    rw [walk_cons hlt] at hstop ⊢
    have hcnt : (chainMod ch (chainWalk ch (a + ch.cnt.getD 1) p).1 f).cnt = ch.cnt := by
      cases hz : (chainWalk ch (a + ch.cnt.getD 1) p).1 with
      | zero => rw [chainMod_zero]; exact hf ch
      | succ j => exact chainMod_succ_cnt ch j f
    have hrec := ih (by exact hstop)
    rw [chainMod_cons]
    rw [walk_cons hlt, hcnt, hrec]
  | case2 d c l a p ch hlt _ =>
    have hge : p ≤ a := by
      rw [walk_of_ge (by omega)] at hstop
      exact hstop
    simp only [walk_of_ge hge, chainMod_zero]
  | case3 d c l a p =>
    rw [walk_none] at hstop ⊢
    rw [chainMod_zero, walk_of_ge hstop]

/-- Walk over a tree extended at the stopping depth: when the original walk
stopped because the chain ran out short of the target, attaching a wildcard
child carrying exactly the missing count makes the walk descend once more and
stop exactly at the target. -/
theorem walk_chainMod_extend {A : TrieNode I V} {a p : Nat} {x : TrieNode I V}
    (hshort : (chainWalk A a p).2.2 < p)
    (hx : x.cnt = some (p - (chainWalk A a p).2.2)) :
    chainWalk (chainMod A (chainWalk A a p).1 fun n => n.setWild (some x)) a p =
      ((chainWalk A a p).1 + 1, x, p) := by
  induction A, a, p using chainWalk.induct with
  | case1 d c l a p ch hlt _ ih =>
    rw [walk_cons hlt] at hshort hx ⊢
    have hcnt : (chainMod ch (chainWalk ch (a + ch.cnt.getD 1) p).1
        fun n => n.setWild (some x)).cnt = ch.cnt := by
      cases hz : (chainWalk ch (a + ch.cnt.getD 1) p).1 with
      | zero => rw [chainMod_zero]; simp
      | succ j => exact chainMod_succ_cnt ch j _
    rw [chainMod_cons, walk_cons hlt, hcnt, ih (by exact hshort) (by exact hx)]
  | case2 d c l a p ch hlt _ =>
    rw [walk_of_ge (by omega)] at hshort
    simp only at hshort
    omega
  | case3 d c l a p =>
    rw [walk_none] at hshort hx ⊢
    simp only at hshort hx
    have hstep : a + x.cnt.getD 1 = p := by
      rw [hx]
      simp
      omega
    rw [chainMod_zero]
    have : (mk d c none l).setWild (some x) = mk d c (some x) l := rfl
    rw [this, walk_cons hshort, hstep, walk_of_ge (Nat.le_refl p)]

/-- Walk over a tree split one level above the stopping depth: when the
original walk overshot the target, replacing the parent's wildcard edge by a
fresh node that carries exactly the count missing at the parent makes the
walk stop at that fresh node, exactly at the target. -/
theorem walk_chainMod_split {A : TrieNode I V} {a p : Nat} {x : TrieNode I V}
    (hover : p < (chainWalk A a p).2.2) (ha : a < p)
    (hx : x.cnt = some (p - ((chainWalk A a p).2.2 -
      (chainWalk A a p).2.1.cnt.getD 1))) :
    chainWalk (chainMod A ((chainWalk A a p).1 - 1) fun n => n.setWild (some x))
        a p =
      ((chainWalk A a p).1, x, p) := by
  induction A, a, p using chainWalk.induct with
  | case1 d c l a p ch hlt _ ih =>
    rw [walk_cons hlt] at hover hx ⊢
    dsimp only at hover hx ⊢
    cases hz : (chainWalk ch (a + ch.cnt.getD 1) p).1 with
    | zero =>
      obtain ⟨hz1, hz2⟩ := walk_zero hz
      rw [hz1, hz2] at hx
      simp only [Nat.add_sub_cancel] at hx
      have h01 : (0 : Nat) + 1 - 1 = 0 := rfl
      rw [h01, chainMod_zero]
      have hsw : (mk d c (some ch) l).setWild (some x) = mk d c (some x) l := rfl
      rw [hsw, walk_cons hlt]
      have hstep : a + x.cnt.getD 1 = p := by
        rw [hx]
        simp
        omega
      rw [hstep, walk_of_ge (Nat.le_refl p)]
    | succ j =>
      have hpos : 0 < (chainWalk ch (a + ch.cnt.getD 1) p).1 := by omega
      have ha2 : a + ch.cnt.getD 1 < p := walk_pos_entry hpos
      have hcnt : (chainMod ch ((chainWalk ch (a + ch.cnt.getD 1) p).1 - 1)
          fun n => n.setWild (some x)).cnt = ch.cnt := by
        cases hz2 : (chainWalk ch (a + ch.cnt.getD 1) p).1 - 1 with
        | zero => rw [chainMod_zero]; simp
        | succ j2 => exact chainMod_succ_cnt ch j2 _
      have hrec := ih hover ha2 hx
      rw [hz] at hrec hcnt
      simp only [Nat.add_sub_cancel] at hrec hcnt
      have e1 : j + 1 + 1 - 1 = j + 1 := rfl
      rw [e1, chainMod_cons, walk_cons hlt, hcnt, hrec]
  | case2 d c l a p ch hlt _ =>
    omega
  | case3 d c l a p =>
    rw [walk_none] at hover
    simp only at hover
    omega

theorem chainGet_add (A : TrieNode I V) (d j : Nat) :
    chainGet A (d + j) = (chainGet A d).bind fun n => chainGet n j := by
  induction j with
  | zero =>
    cases h : chainGet A d <;> simp [h, chainGet]
  | succ j ih =>
    have e1 : d + (j + 1) = (d + j) + 1 := rfl
    rw [e1, chainGet_succ, ih]
    cases h : chainGet A d with
    | none => simp
    | some q => simp [chainGet_succ]

theorem chainGet_walk {A X : TrieNode I V} {d a p : Nat}
    (h : chainGet A d = some X) :
    chainGet A (d + (chainWalk X a p).1) = some (chainWalk X a p).2.1 := by
  rw [chainGet_add, h]
  simpa using walk_chainGet

theorem walk_fuse {A : TrieNode I V} {a : Nat} (p1 p2 : Nat) (h : p1 ≤ p2) :
    chainWalk A a p2 =
      ((chainWalk A a p1).1 +
        (chainWalk (chainWalk A a p1).2.1 (chainWalk A a p1).2.2 p2).1,
       (chainWalk (chainWalk A a p1).2.1 (chainWalk A a p1).2.2 p2).2) := by
  induction A, a, p1 using chainWalk.induct with
  | case1 d c l a p1 ch hlt _ ih =>
    have hlt2 : a < p2 := by omega
    rw [walk_cons hlt, walk_cons hlt2]
    dsimp only
    rw [ih h]
    dsimp only
    rw [Prod.ext_iff]
    refine ⟨by omega, rfl⟩
  | case2 d c l a p1 ch hlt _ =>
    rw [walk_of_ge (Nat.not_lt.mp hlt)]
    simp
  | case3 d c l a p1 =>
    simp [walk_none]

theorem walk_shift (A : TrieNode I V) (a b t : Nat) :
    chainWalk A (a + t) (b + t) =
      ((chainWalk A a b).1, (chainWalk A a b).2.1, (chainWalk A a b).2.2 + t) := by
  induction A, a, b using chainWalk.induct with
  | case1 d c l a b ch hlt _ ih =>
    have hlt2 : a + t < b + t := by omega
    rw [walk_cons hlt, walk_cons hlt2]
    dsimp only
    have e1 : a + t + ch.cnt.getD 1 = (a + ch.cnt.getD 1) + t := by omega
    rw [e1, ih]
  | case2 d c l a b ch hlt _ =>
    rw [walk_of_ge (Nat.not_lt.mp hlt), walk_of_ge (by omega)]
  | case3 d c l a b =>
    rw [walk_none, walk_none]

variable [DecidableEq I]

theorem softSeekLoop_shift (segs : List (Seg I)) (n : TrieNode I V) (a b t : Nat) :
    softSeekLoop n (a + t) (b + t) segs =
      (softSeekLoop n a b segs).map fun r => (r.1, r.2.1 + t, r.2.2 + t) := by
  induction segs generalizing n a b with
  | nil => simp [softSeekLoop]
  | cons s rest ih =>
    cases s with
    | lit i =>
      by_cases hab : a = b
      · subst hab
        cases h : n.getLit i with
        | none => simp [softSeekLoop, h]
        | some child =>
          simp only [softSeekLoop, ne_eq, not_true_eq_false, if_false, h]
          simpa using ih child a a
      · have hab2 : a + t ≠ b + t := by omega
        simp [softSeekLoop, hab, hab2]
    | wc k =>
      simp only [softSeekLoop]
      have e1 : b + t + k = (b + k) + t := by omega
      rw [e1, walk_shift]
      exact ih _ _ _

theorem softSeekSync_cons_lit {X Y : TrieNode I V} {i : I} {rest : List (Seg I)}
    (h : X.getLit i = some Y) :
    softSeekSync X (.lit i :: rest) = softSeekSync Y rest := by
  simp [softSeekSync, softSeekLoop, h]

theorem softSeekSync_cons_lit_none {X : TrieNode I V} {i : I} {rest : List (Seg I)}
    (h : X.getLit i = none) :
    softSeekSync X (.lit i :: rest) = none := by
  simp [softSeekSync, softSeekLoop, h]

theorem softSeekSync_cons_wc_exact {X : TrieNode I V} {k : Nat} {rest : List (Seg I)}
    (hw : (chainWalk X 0 k).2.2 = k) :
    softSeekSync X (.wc k :: rest) = softSeekSync (chainWalk X 0 k).2.1 rest := by
  simp only [softSeekSync, softSeekLoop, Nat.zero_add]
  rw [hw]
  have := softSeekLoop_shift rest (chainWalk X 0 k).2.1 0 0 k
  simp only [Nat.zero_add] at this
  rw [this]
  cases h : softSeekLoop (chainWalk X 0 k).2.1 0 0 rest with
  | none => simp
  | some r =>
    obtain ⟨n, a, b⟩ := r
    by_cases hab : a = b
    · subst hab
      cases hd : n.data.isNone <;> simp [hd]
    · have : a + k ≠ b + k := by omega
      simp [this, hab]

theorem softSeekSync_cons_wc_mismatch {X : TrieNode I V} {k : Nat}
    {rest : List (Seg I)} (hw : (chainWalk X 0 k).2.2 ≠ k)
    (hrest : rest = [] ∨ ∃ i r2, rest = .lit i :: r2) :
    softSeekSync X (.wc k :: rest) = none := by
  rcases hrest with h | ⟨i, r2, h⟩ <;> subst h
  · simp only [softSeekSync, softSeekLoop, Nat.zero_add]
    simp [hw]
  · simp only [softSeekSync, softSeekLoop, Nat.zero_add]
    simp [hw]

/-! ## Equation forms of the resolver -/

theorem resolveNode_eq_lt {A : TrieNode I V} {d nWC pWC : Nat} (h : nWC < pWC) :
    resolveNode A d nWC pWC =
      (chainMod A d fun node =>
        node.setWild (some (mk none (some (pWC - nWC)) none [])), d + 1) := by
  simp [resolveNode, h]

theorem resolveNode_eq_eq {A : TrieNode I V} {d nWC pWC : Nat} (h : nWC = pWC) :
    resolveNode A d nWC pWC = (A, d) := by
  simp [resolveNode, h]

theorem resolveNode_eq_gt {A node : TrieNode I V} {dd nWC pWC : Nat}
    (h : pWC < nWC) (hg : chainGet A (dd + 1) = some node) :
    resolveNode A (dd + 1) nWC pWC =
      (chainMod A dd fun parent =>
        parent.setWild (some (mk none (some (node.cnt.getD 0 - (nWC - pWC)))
          (some (node.setCnt (some (nWC - pWC)))) [])), dd + 1) := by
  simp only [resolveNode, if_neg (by omega : ¬nWC < pWC), if_pos h, hg]

theorem resolveNode_eq_gt_zero {A : TrieNode I V} {nWC pWC : Nat}
    (h : pWC < nWC) : resolveNode A 0 nWC pWC = (A, 0) := by
  simp only [resolveNode, if_neg (by omega : ¬nWC < pWC), if_pos h, chainGet]

theorem resolveNode_eq_gt_none {A : TrieNode I V} {d nWC pWC : Nat}
    (h : pWC < nWC) (hg : chainGet A d = none) :
    resolveNode A d nWC pWC = (A, d) := by
  cases d with
  | zero => simp [chainGet] at hg
  | succ dd => simp only [resolveNode, if_neg (by omega : ¬nWC < pWC), if_pos h, hg]

/-! ## Data-freedom and well-formedness lemmas -/

theorem dataFree_mk {d : Option V} {c : Option Nat} {ow : Option (TrieNode I V)}
    {l : List (I × TrieNode I V)} :
    dataFree (mk d c ow l) = (d.isNone && dataFreeO ow && dataFreeL l) := by
  rw [dataFree]

theorem dataFree_parts {d : Option V} {c : Option Nat} {ow : Option (TrieNode I V)}
    {l : List (I × TrieNode I V)} (h : dataFree (mk d c ow l) = true) :
    d = none ∧ dataFreeO ow = true ∧ dataFreeL l = true := by
  rw [dataFree_mk] at h
  simp at h
  exact ⟨h.1.1, h.1.2, h.2⟩

theorem dataFree_intro {d : Option V} {c : Option Nat} {ow : Option (TrieNode I V)}
    {l : List (I × TrieNode I V)} (h1 : d = none) (h2 : dataFreeO ow = true)
    (h3 : dataFreeL l = true) : dataFree (mk d c ow l) = true := by
  rw [dataFree_mk]
  simp [h1, h2, h3]

theorem dataFree_data {n : TrieNode I V} (h : dataFree n = true) :
    n.data = none := by
  obtain ⟨d, c, ow, l⟩ := n
  simpa using (dataFree_parts h).1

theorem dataFree_wild {n ch : TrieNode I V} (h : dataFree n = true)
    (hw : n.wild = some ch) : dataFree ch = true := by
  obtain ⟨d, c, ow, l⟩ := n
  simp only [wild_mk] at hw
  subst hw
  have := (dataFree_parts h).2.1
  rwa [dataFreeO] at this

theorem dataFree_lookupL {l : List (I × TrieNode I V)} [DecidableEq I] {i : I}
    {ch : TrieNode I V} (h : dataFreeL l = true) (hl : lookupL l i = some ch) :
    dataFree ch = true := by
  induction l with
  | nil => simp [lookupL] at hl
  | cons hd tl ih =>
    obtain ⟨j, m⟩ := hd
    rw [dataFreeL] at h
    simp at h
    by_cases hj : j = i
    · simp [lookupL, hj] at hl
      subst hl
      exact h.1
    · simp [lookupL, hj] at hl
      exact ih h.2 hl

theorem dataFree_getLit [DecidableEq I] {n ch : TrieNode I V} {i : I}
    (h : dataFree n = true) (hl : n.getLit i = some ch) : dataFree ch = true := by
  obtain ⟨d, c, ow, l⟩ := n
  exact dataFree_lookupL (dataFree_parts h).2.2 hl

theorem dataFree_chainGet {A cur : TrieNode I V} {d : Nat}
    (h : dataFree A = true) (hg : chainGet A d = some cur) :
    dataFree cur = true := by
  induction d generalizing A with
  | zero =>
    simp [chainGet] at hg
    subst hg
    exact h
  | succ d ih =>
    obtain ⟨dt, c, ow, l⟩ := A
    cases ow with
    | none => simp [chainGet] at hg
    | some ch =>
      simp only [chainGet] at hg
      exact ih (dataFree_wild h rfl) hg

theorem dataFree_setWild {n x : TrieNode I V} (h : dataFree n = true)
    (hx : dataFree x = true) : dataFree (n.setWild (some x)) = true := by
  obtain ⟨d, c, ow, l⟩ := n
  obtain ⟨h1, h2, h3⟩ := dataFree_parts h
  refine dataFree_intro h1 ?_ h3
  rwa [dataFreeO]

theorem dataFree_setCnt {n : TrieNode I V} (c2 : Option Nat)
    (h : dataFree n = true) : dataFree (n.setCnt c2) = true := by
  obtain ⟨d, c, ow, l⟩ := n
  obtain ⟨h1, h2, h3⟩ := dataFree_parts h
  exact dataFree_intro h1 h2 h3

theorem dataFreeL_setL [DecidableEq I] {l : List (I × TrieNode I V)} {i : I}
    {x : TrieNode I V} (h : dataFreeL l = true) (hx : dataFree x = true) :
    dataFreeL (setL l i x) = true := by
  induction l with
  | nil =>
    rw [setL]
    simp only [dataFreeL]
    simp [hx]
  | cons hd tl ih =>
    obtain ⟨j, m⟩ := hd
    rw [dataFreeL] at h
    simp at h
    by_cases hj : j = i
    · subst hj
      simp [setL, dataFreeL, hx, h.2]
    · simp [setL, hj, dataFreeL, h.1, ih h.2]

theorem dataFree_setLit [DecidableEq I] {n x : TrieNode I V} {i : I}
    (h : dataFree n = true) (hx : dataFree x = true) :
    dataFree (n.setLit i x) = true := by
  obtain ⟨d, c, ow, l⟩ := n
  obtain ⟨h1, h2, h3⟩ := dataFree_parts h
  rw [setLit]
  exact dataFree_intro h1 h2 (dataFreeL_setL h3 hx)

theorem dataFree_chainMod {A : TrieNode I V} {d : Nat}
    {f : TrieNode I V → TrieNode I V} (h : dataFree A = true)
    (hf : ∀ x, dataFree x = true → dataFree (f x) = true) :
    dataFree (chainMod A d f) = true := by
  induction d generalizing A with
  | zero => exact hf A h
  | succ d ih =>
    obtain ⟨dt, c, ow, l⟩ := A
    cases ow with
    | none => simpa [chainMod] using h
    | some ch =>
      rw [chainMod_cons]
      obtain ⟨h1, h2, h3⟩ := dataFree_parts h
      refine dataFree_intro h1 ?_ h3
      rw [dataFreeO]
      exact ih (dataFree_wild h rfl)

theorem dataFree_empty : dataFree (empty : TrieNode I V) = true := rfl

theorem dataFree_resolveNode {A : TrieNode I V} {d nWC pWC : Nat}
    (h : dataFree A = true) : dataFree (resolveNode A d nWC pWC).1 = true := by
  rcases Nat.lt_trichotomy nWC pWC with h1 | h1 | h1
  · rw [resolveNode_eq_lt h1]
    exact dataFree_chainMod h fun x hx => dataFree_setWild hx rfl
  · rw [resolveNode_eq_eq h1]
    exact h
  · cases hg : chainGet A d with
    | none => rw [resolveNode_eq_gt_none h1 hg]; exact h
    | some node =>
      cases d with
      | zero => rw [resolveNode_eq_gt_zero h1]; exact h
      | succ dd =>
        rw [resolveNode_eq_gt h1 hg]
        have hnode : dataFree node = true := dataFree_chainGet h hg
        refine dataFree_chainMod h fun x hx => dataFree_setWild hx ?_
        refine dataFree_intro rfl ?_ rfl
        rw [dataFreeO]
        exact dataFree_setCnt _ hnode

theorem wfNode_mk {d : Option V} {c : Option Nat} {ow : Option (TrieNode I V)}
    {l : List (I × TrieNode I V)} :
    wfNode (mk d c ow l) = (wfWild ow && wfLits l) := by
  rw [wfNode]

theorem wfNode_parts {d : Option V} {c : Option Nat} {ow : Option (TrieNode I V)}
    {l : List (I × TrieNode I V)} (h : wfNode (mk d c ow l) = true) :
    wfWild ow = true ∧ wfLits l = true := by
  rw [wfNode_mk] at h
  simpa using h

theorem wfNode_intro {d : Option V} {c : Option Nat} {ow : Option (TrieNode I V)}
    {l : List (I × TrieNode I V)} (h1 : wfWild ow = true) (h2 : wfLits l = true) :
    wfNode (mk d c ow l) = true := by
  rw [wfNode_mk]
  simp [h1, h2]

theorem wfWild_some {ch : TrieNode I V} (h : wfWild (some ch) = true) :
    (∃ k, ch.cnt = some k ∧ 1 ≤ k) ∧ wfNode ch = true := by
  rw [wfWild] at h
  simp at h
  cases hc : ch.cnt with
  | none => rw [hc] at h; simp at h
  | some k =>
    rw [hc] at h
    simp at h
    exact ⟨⟨k, rfl, h.1⟩, h.2⟩

theorem wfWild_intro {ch : TrieNode I V} {k : Nat} (hc : ch.cnt = some k)
    (hk : 1 ≤ k) (h : wfNode ch = true) : wfWild (some ch) = true := by
  rw [wfWild, hc]
  simp [hk, h]

theorem wf_wild {n ch : TrieNode I V} (h : wfNode n = true)
    (hw : n.wild = some ch) :
    (∃ k, ch.cnt = some k ∧ 1 ≤ k) ∧ wfNode ch = true := by
  obtain ⟨d, c, ow, l⟩ := n
  simp only [wild_mk] at hw
  subst hw
  exact wfWild_some (wfNode_parts h).1

theorem wf_lookupL [DecidableEq I] {l : List (I × TrieNode I V)} {i : I}
    {ch : TrieNode I V} (h : wfLits l = true) (hl : lookupL l i = some ch) :
    wfNode ch = true := by
  induction l with
  | nil => simp [lookupL] at hl
  | cons hd tl ih =>
    obtain ⟨j, m⟩ := hd
    rw [wfLits] at h
    simp at h
    by_cases hj : j = i
    · simp [lookupL, hj] at hl
      subst hl
      exact h.1
    · simp [lookupL, hj] at hl
      exact ih h.2 hl

theorem wf_getLit [DecidableEq I] {n ch : TrieNode I V} {i : I}
    (h : wfNode n = true) (hl : n.getLit i = some ch) : wfNode ch = true := by
  obtain ⟨d, c, ow, l⟩ := n
  exact wf_lookupL (wfNode_parts h).2 hl

theorem wf_chainGet {A cur : TrieNode I V} {d : Nat} (h : wfNode A = true)
    (hg : chainGet A d = some cur) :
    wfNode cur = true ∧ (0 < d → ∃ k, cur.cnt = some k ∧ 1 ≤ k) := by
  induction d generalizing A with
  | zero =>
    simp [chainGet] at hg
    subst hg
    exact ⟨h, by omega⟩
  | succ d ih =>
    obtain ⟨dt, c, ow, l⟩ := A
    cases ow with
    | none => simp [chainGet] at hg
    | some ch =>
      simp only [chainGet] at hg
      obtain ⟨⟨k, hk, hk1⟩, hwf⟩ := wf_wild h (n := mk dt c (some ch) l) rfl
      cases d with
      | zero =>
        simp [chainGet] at hg
        subst hg
        exact ⟨hwf, fun _ => ⟨k, hk, hk1⟩⟩
      | succ d2 => exact ⟨(ih hwf hg).1, fun _ => (ih hwf hg).2 (by omega)⟩

theorem wfNode_setData {n : TrieNode I V} (v : Option V) :
    wfNode (n.setData v) = wfNode n := by
  obtain ⟨d, c, ow, l⟩ := n
  rfl

theorem wfNode_setCnt {n : TrieNode I V} (c2 : Option Nat) :
    wfNode (n.setCnt c2) = wfNode n := by
  obtain ⟨d, c, ow, l⟩ := n
  rfl

theorem wf_setWild {n x : TrieNode I V} {k : Nat} (h : wfNode n = true)
    (hx : wfNode x = true) (hk : x.cnt = some k) (h1 : 1 ≤ k) :
    wfNode (n.setWild (some x)) = true := by
  obtain ⟨d, c, ow, l⟩ := n
  exact wfNode_intro (wfWild_intro hk h1 hx) (wfNode_parts h).2

theorem wfLits_setL [DecidableEq I] {l : List (I × TrieNode I V)} {i : I}
    {x : TrieNode I V} (h : wfLits l = true) (hx : wfNode x = true) :
    wfLits (setL l i x) = true := by
  induction l with
  | nil =>
    rw [setL]
    simp [wfLits, hx]
  | cons hd tl ih =>
    obtain ⟨j, m⟩ := hd
    rw [wfLits] at h
    simp at h
    by_cases hj : j = i
    · subst hj
      simp [setL, wfLits, hx, h.2]
    · simp [setL, hj, wfLits, h.1, ih h.2]

theorem wf_setLit [DecidableEq I] {n x : TrieNode I V} {i : I}
    (h : wfNode n = true) (hx : wfNode x = true) :
    wfNode (n.setLit i x) = true := by
  obtain ⟨d, c, ow, l⟩ := n
  rw [setLit]
  exact wfNode_intro (wfNode_parts h).1 (wfLits_setL (wfNode_parts h).2 hx)

theorem wf_chainMod {A : TrieNode I V} {d : Nat}
    {f : TrieNode I V → TrieNode I V} (h : wfNode A = true)
    (hf : ∀ x, wfNode x = true → wfNode (f x) = true ∧ (f x).cnt = x.cnt) :
    wfNode (chainMod A d f) = true := by
  induction d generalizing A with
  | zero => exact (hf A h).1
  | succ d ih =>
    obtain ⟨dt, c, ow, l⟩ := A
    cases ow with
    | none => simpa [chainMod] using h
    | some ch =>
      rw [chainMod_cons]
      obtain ⟨⟨k, hk, hk1⟩, hwf⟩ := wf_wild h (n := mk dt c (some ch) l) rfl
      have hcnt : (chainMod ch d f).cnt = ch.cnt := by
        cases d with
        | zero => rw [chainMod_zero]; exact (hf ch hwf).2
        | succ d2 => exact chainMod_succ_cnt ch d2 f
      refine wfNode_intro (wfWild_intro (by rw [hcnt, hk]) hk1 (ih hwf))
        (wfNode_parts h).2

theorem wfNode_empty : wfNode (empty : TrieNode I V) = true := rfl

variable [DecidableEq I] in
/-- Insertion into a data-free subtree never finds an occupied terminal:
the `exists` flag of `hardSeekSet` is `false`. -/
theorem hardSeekSet_dataFree_ex :
    ∀ (segs : List (Seg I)) (A : TrieNode I V) (d nWC pWC : Nat)
      (f : Option V → V), dataFree A = true →
      (hardSeekSet A d nWC pWC segs f).2 = false := by
  intro segs
  induction segs with
  | nil =>
    intro A d nWC pWC f h
    simp only [hardSeekSet]
    have hdf : dataFree (resolveNode A d nWC pWC).1 = true := dataFree_resolveNode h
    cases hg : chainGet (resolveNode A d nWC pWC).1 (resolveNode A d nWC pWC).2 with
    | none => simp [hg, empty, data]
    | some node =>
      have := dataFree_data (dataFree_chainGet hdf hg)
      simp [hg, this]
  | cons s rest ih =>
    cases s with
    | lit i =>
      intro A d nWC pWC f h
      simp only [hardSeekSet]
      have hdf : dataFree (resolveNode A d nWC pWC).1 = true := dataFree_resolveNode h
      cases hg : chainGet (resolveNode A d nWC pWC).1 (resolveNode A d nWC pWC).2 with
      | none =>
        simp only [hg, Option.getD_none]
        cases hl : (empty : TrieNode I V).getLit i with
        | none => exact ih _ 0 0 0 f dataFree_empty
        | some ch => simp [empty, getLit, lookupL] at hl
      | some node =>
        have hn := dataFree_chainGet hdf hg
        simp only [hg, Option.getD_some]
        cases hl : node.getLit i with
        | none => simpa [hl] using ih _ 0 0 0 f dataFree_empty
        | some ch => simpa [hl] using ih _ 0 0 0 f (dataFree_getLit hn hl)
    | wc k =>
      intro A d nWC pWC f h
      simp only [hardSeekSet]
      exact ih A _ _ _ f h

variable [DecidableEq I] in
/-- The lookup loop started inside a data-free subtree only ever reaches
data-free nodes. -/
theorem softSeekLoop_dataFree :
    ∀ (segs : List (Seg I)) (X n : TrieNode I V) (a b a2 b2 : Nat),
      dataFree X = true → softSeekLoop X a b segs = some (n, a2, b2) →
      dataFree n = true := by
  intro segs
  induction segs with
  | nil =>
    intro X n a b a2 b2 h hl
    simp [softSeekLoop] at hl
    rw [← hl.1]
    exact h
  | cons s rest ih =>
    cases s with
    | lit i =>
      intro X n a b a2 b2 h hl
      by_cases hab : a = b
      · subst hab
        simp only [softSeekLoop, ne_eq, not_true_eq_false, if_false] at hl
        cases hg : X.getLit i with
        | none => rw [hg] at hl; simp at hl
        | some child =>
          rw [hg] at hl
          exact ih child n a a a2 b2 (dataFree_getLit h hg) hl
      · simp [softSeekLoop, hab] at hl
    | wc k =>
      intro X n a b a2 b2 h hl
      simp only [softSeekLoop] at hl
      have hcur : dataFree (chainWalk X a (b + k)).2.1 = true :=
        dataFree_chainGet h walk_chainGet
      exact ih _ n _ _ a2 b2 hcur hl

variable [DecidableEq I] in
/-- A lookup inside a data-free subtree always fails. -/
theorem softSeekSync_dataFree {X : TrieNode I V} (segs : List (Seg I))
    (h : dataFree X = true) : softSeekSync X segs = none := by
  rw [softSeekSync]
  cases hl : softSeekLoop X 0 0 segs with
  | none => rfl
  | some r =>
    obtain ⟨n, a, b⟩ := r
    have := dataFree_data (softSeekLoop_dataFree segs X n 0 0 a b h hl)
    simp [this]

variable [DecidableEq I] in
theorem curAt_walk (A : TrieNode I V) (d a p : Nat) :
    (chainGet A (d + (chainWalk ((chainGet A d).getD empty) a p).1)).getD empty =
      (chainWalk ((chainGet A d).getD empty) a p).2.1 := by
  cases hg : chainGet A d with
  | none =>
    have hwalk : chainWalk (empty : TrieNode I V) a p = (0, empty, a) := rfl
    simp [hg, hwalk]
  | some X =>
    simp only [hg, Option.getD_some]
    rw [chainGet_walk hg]
    rfl

end TrieNode

theorem normPath_head_wc_pos {p : List (Seg I)} {b : Nat} {r : List (Seg I)}
    (hv : validPath p = true) (h : normPath p = Seg.wc b :: r) : 1 ≤ b := by
  cases p with
  | nil => simp [normPath] at h
  | cons s rest =>
    cases s with
    | lit i => simp [normPath] at h
    | wc a =>
      have ha : 1 ≤ a := by
        rw [validPath] at hv
        simp at hv
        exact hv.1
      rw [normPath] at h
      rcases hnr : normPath rest with _ | ⟨s2, r2⟩
      · rw [hnr] at h
        simp at h
        omega
      · cases s2 with
        | lit j =>
          rw [hnr] at h
          simp at h
          omega
        | wc b2 =>
          rw [hnr] at h
          simp at h
          omega

theorem validPath_normPath {p : List (Seg I)} (hv : validPath p = true) :
    validPath (normPath p) = true := by
  induction p with
  | nil => simpa [normPath] using hv
  | cons s rest ih =>
    cases s with
    | lit i =>
      rw [validPath] at hv
      rw [normPath, validPath]
      exact ih hv
    | wc a =>
      rw [validPath] at hv
      simp at hv
      have hrest := ih hv.2
      rw [normPath]
      rcases hnr : normPath rest with _ | ⟨s2, r2⟩
      · rw [validPath, validPath]
        simp [hv.1]
      · cases s2 with
        | lit j =>
          rw [validPath]
          rw [hnr] at hrest
          simp [hv.1, hrest]
        | wc b2 =>
          rw [validPath]
          rw [hnr] at hrest
          rw [validPath] at hrest
          simp at hrest ⊢
          exact ⟨by omega, hrest.2⟩

theorem normPath_cons_wc {rest2 : List (Seg I)} {k : Nat}
    (hval : validPath rest2 = true)
    (h : normPath (Seg.wc k :: rest2) = Seg.wc k :: rest2) :
    normPath rest2 = rest2 ∧
      (rest2 = [] ∨ ∃ i r3, rest2 = Seg.lit i :: r3) := by
  rw [normPath] at h
  rcases hnr : normPath rest2 with _ | ⟨s2, r2⟩
  · rw [hnr] at h
    simp at h
    subst h
    simp [hnr]
  · cases s2 with
    | lit j =>
      rw [hnr] at h
      simp at h
      refine ⟨h, ?_⟩
      right
      exact ⟨j, r2, h.symm⟩
    | wc b2 =>
      have hb2 : 1 ≤ b2 := normPath_head_wc_pos hval hnr
      rw [hnr] at h
      simp at h
      omega

namespace TrieNode

variable [DecidableEq I]

/-- Insertion is invariant under merging adjacent wildcard segments: the seek
state machine depends only on the accumulated counts (C4's hard half). -/
theorem hardSeekSet_norm :
    ∀ (segs : List (Seg I)) (A : TrieNode I V) (d nWC pWC : Nat)
      (f : Option V → V),
      hardSeekSet A d nWC pWC (normPath segs) f =
        hardSeekSet A d nWC pWC segs f := by
  intro segs
  induction segs with
  | nil => intro A d nWC pWC f; rfl
  | cons s rest ih =>
    cases s with
    | lit i =>
      intro A d nWC pWC f
      rw [normPath]
      simp only [hardSeekSet]
      rw [ih]
    | wc a =>
      intro A d nWC pWC f
      rw [normPath]
      rcases hnr : normPath rest with _ | ⟨s2, r2⟩
      · show hardSeekSet A d nWC pWC [Seg.wc a] f = _
        simp only [hardSeekSet]
        have := ih A (d + (chainWalk ((chainGet A d).getD empty) nWC (pWC + a)).1)
          (chainWalk ((chainGet A d).getD empty) nWC (pWC + a)).2.2 (pWC + a) f
        rw [hnr] at this
        exact this
      · cases s2 with
        | lit j =>
          show hardSeekSet A d nWC pWC (Seg.wc a :: Seg.lit j :: r2) f = _
          simp only [hardSeekSet]
          have := ih A (d + (chainWalk ((chainGet A d).getD empty) nWC (pWC + a)).1)
            (chainWalk ((chainGet A d).getD empty) nWC (pWC + a)).2.2 (pWC + a) f
          rw [hnr] at this
          exact this
        | wc b =>
          show hardSeekSet A d nWC pWC (Seg.wc (a + b) :: r2) f = _
          simp only [hardSeekSet]
          have hfuse := walk_fuse (A := (chainGet A d).getD empty) (a := nWC)
            (pWC + a) (pWC + a + b) (by omega)
          have hcur := curAt_walk A d nWC (pWC + a)
          have hrhs := ih A (d + (chainWalk ((chainGet A d).getD empty) nWC (pWC + a)).1)
            (chainWalk ((chainGet A d).getD empty) nWC (pWC + a)).2.2 (pWC + a) f
          rw [hnr] at hrhs
          rw [← hrhs]
          simp only [hardSeekSet]
          rw [hcur]
          have e1 : pWC + (a + b) = pWC + a + b := by omega
          rw [e1, hfuse]
          dsimp only
          have e2 : d + ((chainWalk ((chainGet A d).getD empty) nWC (pWC + a)).1 +
              (chainWalk (chainWalk ((chainGet A d).getD empty) nWC (pWC + a)).2.1
                (chainWalk ((chainGet A d).getD empty) nWC (pWC + a)).2.2
                (pWC + a + b)).1) =
              d + (chainWalk ((chainGet A d).getD empty) nWC (pWC + a)).1 +
              (chainWalk (chainWalk ((chainGet A d).getD empty) nWC (pWC + a)).2.1
                (chainWalk ((chainGet A d).getD empty) nWC (pWC + a)).2.2
                (pWC + a + b)).1 := by omega
          rw [e2]

/-- Lookup is invariant under merging adjacent wildcard segments (C4's soft
half). -/
theorem softSeekLoop_norm :
    ∀ (segs : List (Seg I)) (n : TrieNode I V) (a b : Nat),
      softSeekLoop n a b (normPath segs) = softSeekLoop n a b segs := by
  intro segs
  induction segs with
  | nil => intro n a b; rfl
  | cons s rest ih =>
    cases s with
    | lit i =>
      intro n a b
      rw [normPath]
      by_cases hab : a = b
      · subst hab
        simp only [softSeekLoop, ne_eq, not_true_eq_false, if_false]
        cases hg : n.getLit i with
        | none => rfl
        | some child => exact ih child a a
      · simp [softSeekLoop, hab]
    | wc a2 =>
      intro n a b
      rw [normPath]
      rcases hnr : normPath rest with _ | ⟨s2, r2⟩
      · show softSeekLoop n a b [Seg.wc a2] = _
        simp only [softSeekLoop]
        have := ih (chainWalk n a (b + a2)).2.1 (chainWalk n a (b + a2)).2.2 (b + a2)
        rw [hnr] at this
        exact this
      · cases s2 with
        | lit j =>
          show softSeekLoop n a b (Seg.wc a2 :: Seg.lit j :: r2) = _
          simp only [softSeekLoop]
          have := ih (chainWalk n a (b + a2)).2.1 (chainWalk n a (b + a2)).2.2 (b + a2)
          rw [hnr] at this
          exact this
        | wc b2 =>
          show softSeekLoop n a b (Seg.wc (a2 + b2) :: r2) = _
          simp only [softSeekLoop]
          have hfuse := walk_fuse (A := n) (a := a) (b + a2) (b + a2 + b2)
            (by omega)
          have hrhs := ih (chainWalk n a (b + a2)).2.1 (chainWalk n a (b + a2)).2.2
            (b + a2)
          rw [hnr] at hrhs
          rw [← hrhs]
          simp only [softSeekLoop]
          have e1 : b + (a2 + b2) = b + a2 + b2 := by omega
          rw [e1, hfuse]

theorem softSeekSync_norm (X : TrieNode I V) (segs : List (Seg I)) :
    softSeekSync X (normPath segs) = softSeekSync X segs := by
  rw [softSeekSync, softSeekSync, softSeekLoop_norm]

end TrieNode

namespace TrieNode

theorem getLit_of_lits_nil [DecidableEq I] {n : TrieNode I V} (h : n.lits = [])
    (i : I) : n.getLit i = none := by
  rw [getLit, h]
  rfl

theorem softSeekSync_nil (X : TrieNode I V) [DecidableEq I] :
    softSeekSync X ([] : List (Seg I)) =
      if X.data.isNone then none else some X := by
  rw [softSeekSync]
  cases hd : X.data.isNone <;> simp [softSeekLoop, hd]

/-- Workhorse for the round-trip proof: from a clean anchor, after the walk
for a wildcard block of total count `k` and the subsequent resolution, there
is a well-formed resolved node `RN` at the resolved depth; `RN` is the
original stopping node when the walk hit `k` exactly and a freshly created
node (empty terminal slot, no literal edges) otherwise; and rewriting `RN`
with any run-length-preserving, well-formedness-preserving `g` leaves a
well-formed tree whose walk for `k` stops exactly at `g RN` with count `k`. -/
theorem resolveStep [DecidableEq I] {A : TrieNode I V} {k : Nat}
    (h : wfNode A = true) (hk : 1 ≤ k) :
    ∃ RN : TrieNode I V,
      chainGet (resolveNode A (chainWalk A 0 k).1 (chainWalk A 0 k).2.2 k).1
        (resolveNode A (chainWalk A 0 k).1 (chainWalk A 0 k).2.2 k).2 = some RN ∧
      wfNode RN = true ∧
      (((chainWalk A 0 k).2.2 = k ∧ RN = (chainWalk A 0 k).2.1) ∨
        ((chainWalk A 0 k).2.2 ≠ k ∧ RN.data = none ∧ RN.lits = [])) ∧
      ∀ g : TrieNode I V → TrieNode I V, (∀ n, (g n).cnt = n.cnt) →
        (∀ n, wfNode n = true → wfNode (g n) = true) →
        chainWalk
          (chainMod (resolveNode A (chainWalk A 0 k).1 (chainWalk A 0 k).2.2 k).1
            (resolveNode A (chainWalk A 0 k).1 (chainWalk A 0 k).2.2 k).2 g) 0 k =
          ((resolveNode A (chainWalk A 0 k).1 (chainWalk A 0 k).2.2 k).2,
            g RN, k) ∧
        wfNode (chainMod (resolveNode A (chainWalk A 0 k).1
          (chainWalk A 0 k).2.2 k).1
          (resolveNode A (chainWalk A 0 k).1 (chainWalk A 0 k).2.2 k).2 g) =
          true := by
  rcases Nat.lt_trichotomy (chainWalk A 0 k).2.2 k with hlt | heq | hgt
  · -- the chain ran out short of the target: resolver creates a new child
    rw [resolveNode_eq_lt hlt]
    dsimp only
    refine ⟨mk none (some (k - (chainWalk A 0 k).2.2)) none [], ?_, rfl,
      Or.inr ⟨by omega, rfl, rfl⟩, ?_⟩
    · rw [chainGet_succ, chainGet_chainMod _ walk_chainGet]
      simp
    · intro g hgc hgw
      have hcomp : chainMod (chainMod A (chainWalk A 0 k).1 fun node =>
          node.setWild (some (mk none (some (k - (chainWalk A 0 k).2.2)) none [])))
            ((chainWalk A 0 k).1 + 1) g =
          chainMod A (chainWalk A 0 k).1 fun n =>
            n.setWild (some (g (mk none (some (k - (chainWalk A 0 k).2.2)) none []))) := by
        rw [chainMod_add _ (chainWalk A 0 k).1 1, chainMod_chainMod]
        refine chainMod_congr _ _ walk_chainGet ?_
        obtain ⟨d2, c2, ow2, l2⟩ := (chainWalk A 0 k).2.1
        rw [setWild, chainMod_cons, chainMod_zero]
        rfl
      rw [hcomp]
      constructor
      · exact walk_chainMod_extend hlt (by rw [hgc]; rfl)
      · refine wf_chainMod h fun x hx => ⟨?_, by simp⟩
        refine wf_setWild (k := k - (chainWalk A 0 k).2.2) hx (hgw _ (by rfl))
          (by rw [hgc]; rfl) (by omega)
  · -- exact boundary: resolver is the identity
    rw [resolveNode_eq_eq heq]
    dsimp only
    refine ⟨(chainWalk A 0 k).2.1, walk_chainGet, (wf_chainGet h walk_chainGet).1,
      Or.inl ⟨heq, rfl⟩, ?_⟩
    intro g hgc hgw
    constructor
    · have := walk_chainMod_stop (A := A) (a := 0) (p := k) g hgc (by omega)
      rw [this, heq]
    · exact wf_chainMod h fun x hx => ⟨hgw x hx, hgc x⟩
  · -- overshoot: resolver splits the stopping node
    have hdd : 0 < (chainWalk A 0 k).1 := by
      by_contra hz
      have hz0 := walk_zero (A := A) (a := 0) (p := k) (by omega)
      omega
    obtain ⟨ddm, hddm⟩ : ∃ ddm, (chainWalk A 0 k).1 = ddm + 1 :=
      ⟨(chainWalk A 0 k).1 - 1, by omega⟩
    have hg2 : chainGet A (ddm + 1) = some (chainWalk A 0 k).2.1 := by
      rw [← hddm]
      exact walk_chainGet
    obtain ⟨hwfcur, hcnt⟩ := wf_chainGet h hg2
    obtain ⟨c, hc, hc1⟩ := hcnt (by omega)
    have henter := walk_enter (A := A) (a := 0) (p := k) hdd
    rw [hc] at henter
    simp only [Option.getD_some] at henter
    obtain ⟨hpar0, hpar⟩ := chainGet_isSome_of_succ hg2
    rw [hddm, resolveNode_eq_gt hgt hg2]
    dsimp only
    have hcnt0 : (chainWalk A 0 k).2.1.cnt.getD 0 = c := by rw [hc]; rfl
    rw [hcnt0]
    have hwfNX : wfNode (mk (none : Option V) (some (c - ((chainWalk A 0 k).2.2 - k)))
        (some ((chainWalk A 0 k).2.1.setCnt
          (some ((chainWalk A 0 k).2.2 - k)))) ([] : List (I × TrieNode I V))) = true := by
      refine wfNode_intro ?_ rfl
      refine wfWild_intro (cnt_setCnt _ _) (by omega) ?_
      rw [wfNode_setCnt]
      exact hwfcur
    refine ⟨mk none (some (c - ((chainWalk A 0 k).2.2 - k)))
      (some ((chainWalk A 0 k).2.1.setCnt (some ((chainWalk A 0 k).2.2 - k)))) [],
      ?_, hwfNX, Or.inr ⟨by omega, rfl, rfl⟩, ?_⟩
    · rw [chainGet_succ, chainGet_chainMod _ hpar]
      simp
    · intro g hgc hgw
      have hcomp : chainMod (chainMod A ddm fun parent =>
          parent.setWild (some (mk none (some (c - ((chainWalk A 0 k).2.2 - k)))
            (some ((chainWalk A 0 k).2.1.setCnt
              (some ((chainWalk A 0 k).2.2 - k)))) []))) (ddm + 1) g =
          chainMod A ddm fun n =>
            n.setWild (some (g (mk none (some (c - ((chainWalk A 0 k).2.2 - k)))
              (some ((chainWalk A 0 k).2.1.setCnt
                (some ((chainWalk A 0 k).2.2 - k)))) []))) := by
        rw [chainMod_add _ ddm 1, chainMod_chainMod]
        refine chainMod_congr _ _ hpar ?_
        obtain ⟨d2, c2, ow2, l2⟩ := hpar0
        rw [setWild, chainMod_cons, chainMod_zero]
        rfl
      rw [hcomp]
      constructor
      · have hx : (g (mk none (some (c - ((chainWalk A 0 k).2.2 - k)))
            (some ((chainWalk A 0 k).2.1.setCnt
              (some ((chainWalk A 0 k).2.2 - k)))) [])).cnt =
            some (k - ((chainWalk A 0 k).2.2 - (chainWalk A 0 k).2.1.cnt.getD 1)) := by
          rw [hgc, hc]
          simp only [cnt_mk, Option.getD_some]
          congr 1
          omega
        have hsplit := walk_chainMod_split (A := A) (a := 0) (p := k) hgt
          (by omega) hx
        have hd1 : (chainWalk A 0 k).1 - 1 = ddm := by omega
        rw [hd1, hddm] at hsplit
        exact hsplit
      · refine wf_chainMod h fun x hx => ⟨?_, by simp⟩
        refine wf_setWild (k := c - ((chainWalk A 0 k).2.2 - k)) hx (hgw _ hwfNX)
          (by rw [hgc]; rfl) (by omega)

end TrieNode

namespace TrieNode

variable [DecidableEq I]

theorem hardSeekSet_nil_eq (A : TrieNode I V) (d nWC pWC : Nat)
    (f : Option V → V) :
    hardSeekSet A d nWC pWC [] f =
      (chainMod (resolveNode A d nWC pWC).1 (resolveNode A d nWC pWC).2
        fun n => n.setData (some (f ((chainGet (resolveNode A d nWC pWC).1
          (resolveNode A d nWC pWC).2).getD empty).data)),
       ((chainGet (resolveNode A d nWC pWC).1
         (resolveNode A d nWC pWC).2).getD empty).data.isSome) := rfl

theorem hardSeekSet_lit_eq (A : TrieNode I V) (d nWC pWC : Nat) (i : I)
    (rest : List (Seg I)) (f : Option V → V) :
    hardSeekSet A d nWC pWC (Seg.lit i :: rest) f =
      (chainMod (resolveNode A d nWC pWC).1 (resolveNode A d nWC pWC).2
        fun n => n.setLit i (hardSeekSet
          ((((chainGet (resolveNode A d nWC pWC).1
            (resolveNode A d nWC pWC).2).getD empty).getLit i).getD empty)
          0 0 0 rest f).1,
       (hardSeekSet ((((chainGet (resolveNode A d nWC pWC).1
         (resolveNode A d nWC pWC).2).getD empty).getLit i).getD empty)
         0 0 0 rest f).2) := rfl

theorem hardSeekSet_wc_eq (A : TrieNode I V) (d nWC pWC k : Nat)
    (rest : List (Seg I)) (f : Option V → V) :
    hardSeekSet A d nWC pWC (Seg.wc k :: rest) f =
      hardSeekSet A
        (d + (chainWalk ((chainGet A d).getD empty) nWC (pWC + k)).1)
        (chainWalk ((chainGet A d).getD empty) nWC (pWC + k)).2.2 (pWC + k)
        rest f := rfl

theorem rt_nil_case (A : TrieNode I V) (v : V) (hwf : wfNode A = true) :
    ((softSeekSync (hardSeekSet A 0 0 0 ([] : List (Seg I)) fun _ => v).1
        []).bind data = some v) ∧
    ((hardSeekSet A 0 0 0 ([] : List (Seg I)) fun _ => v).2 =
      (softSeekSync A ([] : List (Seg I))).isSome) ∧
    wfNode (hardSeekSet A 0 0 0 ([] : List (Seg I)) fun _ => v).1 = true := by
  have h0 : hardSeekSet A 0 0 0 ([] : List (Seg I)) (fun _ => v) =
      (A.setData (some v), A.data.isSome) := by
    rw [hardSeekSet_nil_eq, resolveNode_eq_eq rfl]
    simp [chainGet, chainMod]
  rw [h0]
  refine ⟨?_, ?_, ?_⟩
  · rw [softSeekSync_nil]
    simp
  · rw [softSeekSync_nil]
    cases hd : A.data <;> simp [hd]
  · rw [wfNode_setData]
    exact hwf

/-- Round trip of insertion and lookup on normalized valid paths: after
`hardSeekSet` writes `v` along `segs` into a well-formed tree, `softSeekSync`
finds exactly the written node; the `exists` flag equals the success of the
lookup on the original tree; and well-formedness is preserved. -/
theorem hardSoft_roundtrip :
    ∀ (N : Nat) (segs : List (Seg I)) (A : TrieNode I V) (v : V),
      segs.length ≤ N →
      wfNode A = true → validPath segs = true → normPath segs = segs →
      ((softSeekSync (hardSeekSet A 0 0 0 segs fun _ => v).1 segs).bind data
          = some v) ∧
      ((hardSeekSet A 0 0 0 segs fun _ => v).2 = (softSeekSync A segs).isSome) ∧
      wfNode (hardSeekSet A 0 0 0 segs fun _ => v).1 = true := by
  intro N
  induction N with
  | zero =>
    intro segs A v hlen hwf hval hnorm
    cases segs with
    | nil => exact rt_nil_case A v hwf
    | cons s rest => simp at hlen
  | succ N ih =>
    intro segs A v hlen hwf hval hnorm
    cases segs with
    | nil => exact rt_nil_case A v hwf
    | cons s rest =>
      cases s with
      | lit i =>
        rw [normPath] at hnorm
        simp at hnorm
        rw [validPath] at hval
        have h0 : hardSeekSet A 0 0 0 (Seg.lit i :: rest) (fun _ => v) =
            (A.setLit i (hardSeekSet ((A.getLit i).getD empty) 0 0 0 rest
              fun _ => v).1,
             (hardSeekSet ((A.getLit i).getD empty) 0 0 0 rest fun _ => v).2) := by
          rw [hardSeekSet_lit_eq, resolveNode_eq_eq rfl]
          simp [chainGet, chainMod]
        have hwfc : wfNode ((A.getLit i).getD empty) = true := by
          cases hg : A.getLit i with
          | none => exact wfNode_empty
          | some c0 => simpa using wf_getLit hwf hg
        obtain ⟨IH1, IH2, IH3⟩ := ih rest ((A.getLit i).getD empty) v
          (by simp at hlen ⊢; omega) hwfc hval hnorm
        rw [h0]
        refine ⟨?_, ?_, ?_⟩
        · rw [softSeekSync_cons_lit (getLit_setLit A i _)]
          exact IH1
        · cases hg : A.getLit i with
          | none =>
            rw [softSeekSync_cons_lit_none hg]
            rw [hg] at IH2
            simp only [Option.getD_none] at IH2 ⊢
            rw [IH2, softSeekSync_dataFree rest dataFree_empty]
          | some c0 =>
            rw [softSeekSync_cons_lit hg]
            rw [hg] at IH2
            simpa using IH2
        · exact wf_setLit hwf IH3
      | wc k =>
        rw [validPath] at hval
        simp at hval
        obtain ⟨hk, hval2⟩ := hval
        obtain ⟨hn2, hshape⟩ := normPath_cons_wc hval2 hnorm
        have h0 : ∀ f : Option V → V,
            hardSeekSet A 0 0 0 (Seg.wc k :: rest) f =
              hardSeekSet A (chainWalk A 0 k).1 (chainWalk A 0 k).2.2 k rest f := by
          intro f
          rw [hardSeekSet_wc_eq]
          simp [chainGet]
        obtain ⟨RN, hRN, hwfRN, hdisj, hg⟩ := resolveStep hwf hk
        rcases hshape with hre | ⟨i, rest3, hre⟩ <;> subst hre
        · -- the wildcard block ends the path
          have h1 : hardSeekSet A (chainWalk A 0 k).1 (chainWalk A 0 k).2.2 k
              ([] : List (Seg I)) (fun _ => v) =
              (chainMod (resolveNode A (chainWalk A 0 k).1
                  (chainWalk A 0 k).2.2 k).1
                (resolveNode A (chainWalk A 0 k).1 (chainWalk A 0 k).2.2 k).2
                (fun n => n.setData (some v)), RN.data.isSome) := by
            rw [hardSeekSet_nil_eq, hRN]
            simp
          obtain ⟨hwalkT, hwfT⟩ := hg (fun n => n.setData (some v))
            (fun n => cnt_setData n _) (fun n hn => by rwa [wfNode_setData])
          rw [h0, h1]
          refine ⟨?_, ?_, ?_⟩
          · rw [softSeekSync_cons_wc_exact (by rw [hwalkT])]
            have h2 : (chainWalk (chainMod (resolveNode A (chainWalk A 0 k).1
                (chainWalk A 0 k).2.2 k).1
                (resolveNode A (chainWalk A 0 k).1 (chainWalk A 0 k).2.2 k).2
                fun n => n.setData (some v)) 0 k).2.1 = RN.setData (some v) := by
              rw [hwalkT]
            rw [h2, softSeekSync_nil]
            simp
          · rcases hdisj with ⟨hexact, hRNw⟩ | ⟨hne, hdata, hlits⟩
            · rw [softSeekSync_cons_wc_exact hexact, ← hRNw, softSeekSync_nil]
              cases hd : RN.data <;> simp [hd]
            · rw [softSeekSync_cons_wc_mismatch hne (Or.inl rfl)]
              simp [hdata]
          · exact hwfT
        · -- a literal segment follows the wildcard block
          have hn3 : normPath rest3 = rest3 := by
            rw [normPath] at hn2
            simpa using hn2
          have hval3 : validPath rest3 = true := by rwa [validPath] at hval2
          have h1 : hardSeekSet A (chainWalk A 0 k).1 (chainWalk A 0 k).2.2 k
              (Seg.lit i :: rest3) (fun _ => v) =
              (chainMod (resolveNode A (chainWalk A 0 k).1
                  (chainWalk A 0 k).2.2 k).1
                (resolveNode A (chainWalk A 0 k).1 (chainWalk A 0 k).2.2 k).2
                (fun n => n.setLit i (hardSeekSet ((RN.getLit i).getD empty)
                  0 0 0 rest3 fun _ => v).1),
               (hardSeekSet ((RN.getLit i).getD empty) 0 0 0 rest3
                 fun _ => v).2) := by
            rw [hardSeekSet_lit_eq, hRN]
            simp only [Option.getD_some]
          have hwfc : wfNode ((RN.getLit i).getD empty) = true := by
            cases hgl : RN.getLit i with
            | none => exact wfNode_empty
            | some c0 => simpa using wf_getLit hwfRN hgl
          obtain ⟨IH1, IH2, IH3⟩ := ih rest3 ((RN.getLit i).getD empty) v
            (by simp at hlen ⊢; omega) hwfc hval3 hn3
          obtain ⟨hwalkT, hwfT⟩ := hg
            (fun n => n.setLit i (hardSeekSet ((RN.getLit i).getD empty)
              0 0 0 rest3 fun _ => v).1)
            (fun n => cnt_setLit n i _) (fun n hn => wf_setLit hn IH3)
          rw [h0, h1]
          refine ⟨?_, ?_, ?_⟩
          · rw [softSeekSync_cons_wc_exact (by rw [hwalkT])]
            have h2 : (chainWalk (chainMod (resolveNode A (chainWalk A 0 k).1
                (chainWalk A 0 k).2.2 k).1
                (resolveNode A (chainWalk A 0 k).1 (chainWalk A 0 k).2.2 k).2
                fun n => n.setLit i (hardSeekSet ((RN.getLit i).getD empty)
                  0 0 0 rest3 fun _ => v).1) 0 k).2.1 =
                RN.setLit i (hardSeekSet ((RN.getLit i).getD empty)
                  0 0 0 rest3 fun _ => v).1 := by
              rw [hwalkT]
            rw [h2, softSeekSync_cons_lit (getLit_setLit RN i _)]
            exact IH1
          · rcases hdisj with ⟨hexact, hRNw⟩ | ⟨hne, hdata, hlits⟩
            · rw [softSeekSync_cons_wc_exact hexact, ← hRNw]
              cases hgl : RN.getLit i with
              | none =>
                rw [softSeekSync_cons_lit_none hgl]
                rw [hgl] at IH2
                simp only [Option.getD_none] at IH2 ⊢
                rw [IH2, softSeekSync_dataFree rest3 dataFree_empty]
              | some c0 =>
                rw [softSeekSync_cons_lit hgl]
                rw [hgl] at IH2
                simpa using IH2
            · rw [softSeekSync_cons_wc_mismatch hne (Or.inr ⟨i, rest3, rfl⟩)]
              rw [getLit_of_lits_nil hlits] at IH2 ⊢
              simp only [Option.getD_none] at IH2 ⊢
              rw [IH2, softSeekSync_dataFree rest3 dataFree_empty]
          · exact hwfT

end TrieNode

namespace TrieNode

variable [DecidableEq I]

theorem normPath_length : ∀ p : List (Seg I), (normPath p).length ≤ p.length := by
  intro p
  induction p with
  | nil => simp [normPath]
  | cons s rest ih =>
    cases s with
    | lit i =>
      rw [normPath]
      simpa using ih
    | wc a =>
      rw [normPath]
      rcases hnr : normPath rest with _ | ⟨s2, r2⟩
      · simp
      · cases s2 with
        | lit j =>
          rw [hnr] at ih
          simp at ih ⊢
          omega
        | wc b =>
          rw [hnr] at ih
          simp at ih ⊢
          omega

theorem normPath_idem : ∀ p : List (Seg I), normPath (normPath p) = normPath p := by
  intro p
  induction p with
  | nil => rfl
  | cons s rest ih =>
    cases s with
    | lit i =>
      rw [normPath, normPath, ih]
    | wc a =>
      rcases hnr : normPath rest with _ | ⟨s2, r2⟩
      · have e1 : normPath (Seg.wc a :: rest) = [Seg.wc a] := by
          rw [normPath, hnr]
        rw [e1]
        rfl
      · cases s2 with
        | lit j =>
          have e1 : normPath (Seg.wc a :: rest) = Seg.wc a :: Seg.lit j :: r2 := by
            rw [normPath, hnr]
          rw [hnr] at ih
          rw [e1, normPath, ih]
        | wc b =>
          have e1 : normPath (Seg.wc a :: rest) = Seg.wc (a + b) :: r2 := by
            rw [normPath, hnr]
          rw [hnr, normPath] at ih
          rw [e1]
          rcases hnr2 : normPath r2 with _ | ⟨s3, r3⟩
          · rw [hnr2] at ih
            simp at ih
            subst ih
            rfl
          · cases s3 with
            | lit j2 =>
              rw [hnr2] at ih
              simp at ih
              subst ih
              rw [normPath, hnr2]
            | wc c =>
              rw [hnr2] at ih
              simp at ih
              obtain ⟨hbc, hr⟩ := ih
              subst hr
              have hlen := normPath_length r3
              rw [hnr2] at hlen
              simp at hlen

theorem rt_set_get (A : TrieNode I V) (p : List (Seg I)) (v : V)
    (hwf : wfNode A = true) (hval : validPath p = true) :
    ((softSeekSync (hardSeekSet A 0 0 0 p fun _ => v).1 p).bind data = some v) ∧
    ((hardSeekSet A 0 0 0 p fun _ => v).2 = (softSeekSync A p).isSome) ∧
    wfNode (hardSeekSet A 0 0 0 p fun _ => v).1 = true := by
  obtain ⟨R1, R2, R3⟩ := hardSoft_roundtrip (normPath p).length (normPath p) A v
    le_rfl hwf (validPath_normPath hval) (normPath_idem p)
  rw [hardSeekSet_norm] at R1 R2 R3
  rw [softSeekSync_norm] at R1 R2
  exact ⟨R1, R2, R3⟩

end TrieNode

/-- C4: wildcard-fragmentation invariance.  If two valid paths `P1`, `P2`
are fragmentations of the same logical path (same canonical form after
merging adjacent wildcard runs), then `setSync` along either produces the
identical trie, and the value written along one is read back by `getSync`
along the other. -/
theorem fragmentation_invariance {I V : Type} [DecidableEq I] (t : Trie I V)
    (P1 P2 : List (Seg I)) (v : V)
    (hwf : TrieNode.wfNode t.root = true)
    (h1 : validPath P1 = true) (h2 : validPath P2 = true)
    (heq : normPath P1 = normPath P2) :
    t.setSync P1 v = t.setSync P2 v ∧
    (t.setSync P1 v).getSync P2 = some v ∧
    (t.setSync P2 v).getSync P1 = some v := by
  have hset : ∀ f : Option V → V,
      TrieNode.hardSeekSet t.root 0 0 0 P1 f =
        TrieNode.hardSeekSet t.root 0 0 0 P2 f := by
    intro f
    rw [← TrieNode.hardSeekSet_norm P1, heq, TrieNode.hardSeekSet_norm]
  have htrie : t.setSync P1 v = t.setSync P2 v := by
    simp only [Trie.setSync]
    rw [hset]
  refine ⟨htrie, ?_, ?_⟩
  · obtain ⟨R1, _, _⟩ := TrieNode.rt_set_get t.root P2 v hwf h2
    rw [htrie]
    exact R1
  · obtain ⟨R1, _, _⟩ := TrieNode.rt_set_get t.root P1 v hwf h1
    rw [← htrie]
    exact R1

theorem fragmentation_invariance_witness :
    ((Trie.mkEmpty : Trie Nat String).setSync [Seg.wc 1, Seg.wc 1, Seg.lit 3] "a" =
      (Trie.mkEmpty : Trie Nat String).setSync [Seg.wc 2, Seg.lit 3] "a") ∧
    ((Trie.mkEmpty : Trie Nat String).setSync [Seg.wc 1, Seg.wc 1, Seg.lit 3]
      "a").getSync [Seg.wc 2, Seg.lit 3] = some "a" ∧
    ((Trie.mkEmpty : Trie Nat String).setSync [Seg.wc 2, Seg.lit 3]
      "a").getSync [Seg.wc 1, Seg.wc 1, Seg.lit 3] = some "a" :=
  fragmentation_invariance Trie.mkEmpty [Seg.wc 1, Seg.wc 1, Seg.lit 3]
    [Seg.wc 2, Seg.lit 3] "a" rfl rfl rfl rfl

/-- C6: insert/get round-trip with size accounting.  After `setSync P v` on a
well-formed trie with a valid path, `getSync P` returns `v`; `size` grows by
1 exactly when `P` held no value before (`hasSync` false); and a second
`setSync P v2` overwrites the value while leaving `size` unchanged. -/
theorem insert_get_roundtrip {I V : Type} [DecidableEq I] (t : Trie I V)
    (P : List (Seg I)) (v v2 : V)
    (hwf : TrieNode.wfNode t.root = true)
    (hval : validPath P = true) :
    (t.setSync P v).getSync P = some v ∧
    (t.setSync P v).size = t.size + (if t.hasSync P then 0 else 1) ∧
    ((t.setSync P v).setSync P v2).getSync P = some v2 ∧
    ((t.setSync P v).setSync P v2).size = (t.setSync P v).size := by
  obtain ⟨R1, R2, R3⟩ := TrieNode.rt_set_get t.root P v hwf hval
  obtain ⟨S1, S2, S3⟩ := TrieNode.rt_set_get (t.setSync P v).root P v2 R3 hval
  refine ⟨R1, ?_, S1, ?_⟩
  · show t.size +
        (if (TrieNode.hardSeekSet t.root 0 0 0 P fun _ => v).2 then 0 else 1) =
      t.size + (if t.hasSync P then 0 else 1)
    rw [R2]
    rfl
  · have R1s : (TrieNode.softSeekSync (t.setSync P v).root P).bind
        TrieNode.data = some v := R1
    have hs : (TrieNode.softSeekSync (t.setSync P v).root P).isSome = true := by
      cases h : TrieNode.softSeekSync (t.setSync P v).root P with
      | none =>
        rw [h] at R1s
        simp at R1s
      | some _ => rfl
    show (t.setSync P v).size +
        (if (TrieNode.hardSeekSet (t.setSync P v).root 0 0 0 P
          fun _ => v2).2 then 0 else 1) = (t.setSync P v).size
    rw [S2, hs]
    simp

theorem insert_get_roundtrip_witness :
    ((Trie.mkEmpty : Trie Nat String).setSync [Seg.lit 1, Seg.wc 2]
      "x").getSync [Seg.lit 1, Seg.wc 2] = some "x" ∧
    ((Trie.mkEmpty : Trie Nat String).setSync [Seg.lit 1, Seg.wc 2] "x").size =
      (Trie.mkEmpty : Trie Nat String).size +
        (if (Trie.mkEmpty : Trie Nat String).hasSync [Seg.lit 1, Seg.wc 2]
          then 0 else 1) ∧
    (((Trie.mkEmpty : Trie Nat String).setSync [Seg.lit 1, Seg.wc 2]
      "x").setSync [Seg.lit 1, Seg.wc 2] "y").getSync [Seg.lit 1, Seg.wc 2] =
      some "y" ∧
    (((Trie.mkEmpty : Trie Nat String).setSync [Seg.lit 1, Seg.wc 2]
      "x").setSync [Seg.lit 1, Seg.wc 2] "y").size =
      ((Trie.mkEmpty : Trie Nat String).setSync [Seg.lit 1, Seg.wc 2] "x").size :=
  insert_get_roundtrip Trie.mkEmpty [Seg.lit 1, Seg.wc 2] "x" "y" rfl rfl

/-- C10: presence is independent of the stored value.  Storing `none` (the
embedding of the source's `undefined` value) on a fresh valid path makes
`hasSync` true and increments `size` by 1, even though the flattened lookup
result is still `none`: occupancy of the terminal slot, not the value,
determines existence. -/
theorem presence_independent_of_value {I α : Type} [DecidableEq I]
    (t : Trie I (Option α)) (P : List (Seg I))
    (hwf : TrieNode.wfNode t.root = true)
    (hval : validPath P = true)
    (hfresh : t.hasSync P = false) :
    (t.setSync P none).hasSync P = true ∧
    (t.setSync P none).size = t.size + 1 ∧
    (t.setSync P none).getSync P = some none ∧
    ((t.setSync P none).getSync P).join = none := by
  obtain ⟨R1, R2, R3⟩ := TrieNode.rt_set_get t.root P (none : Option α) hwf hval
  have hget : (t.setSync P none).getSync P = some none := R1
  have R1s : (TrieNode.softSeekSync (t.setSync P none).root P).bind
      TrieNode.data = some none := R1
  have hhas : (t.setSync P none).hasSync P = true := by
    show (TrieNode.softSeekSync (t.setSync P none).root P).isSome = true
    cases h : TrieNode.softSeekSync (t.setSync P none).root P with
    | none =>
      rw [h] at R1s
      simp at R1s
    | some _ => rfl
  refine ⟨hhas, ?_, hget, by rw [hget]; rfl⟩
  show t.size + (if (TrieNode.hardSeekSet t.root 0 0 0 P
      fun _ => (none : Option α)).2 then 0 else 1) = t.size + 1
  have hf : (TrieNode.softSeekSync t.root P).isSome = false := hfresh
  rw [R2, hf]
  simp

theorem presence_independent_of_value_witness :
    ((Trie.mkEmpty : Trie Nat (Option Nat)).setSync [Seg.lit 7]
      none).hasSync [Seg.lit 7] = true ∧
    ((Trie.mkEmpty : Trie Nat (Option Nat)).setSync [Seg.lit 7] none).size =
      (Trie.mkEmpty : Trie Nat (Option Nat)).size + 1 ∧
    ((Trie.mkEmpty : Trie Nat (Option Nat)).setSync [Seg.lit 7]
      none).getSync [Seg.lit 7] = some none ∧
    (((Trie.mkEmpty : Trie Nat (Option Nat)).setSync [Seg.lit 7]
      none).getSync [Seg.lit 7]).join = none :=
  presence_independent_of_value Trie.mkEmpty [Seg.lit 7] rfl rfl rfl
